import Mathlib

set_option maxRecDepth 10000

namespace MinifyHtml

/-!
A verification development for the `minify-html` repository: the AST
(`src/src/ast/mod.rs`), the formatting-tag table
(`src/src/rule/tag/formatting.rs`), the CLI driver
(`src/minhtml/src/main.rs`), and — where the repository only declares them —
the parser and rule engine modelled from the design document.

Bytes are modelled as `List Char` (each `Char` standing for one source byte).
-/

abbrev Bytes := List Char

/-- Configuration flags, mirroring the `Cfg` construction in
`src/minhtml/src/main.rs` (one field per CLI boolean flag, all `false` by
default). -/
structure Cfg where
  do_not_minify_doctype : Bool := false
  ensure_spec_compliant_unquoted_attribute_values : Bool := false
  keep_closing_tags : Bool := false
  keep_comments : Bool := false
  keep_html_and_head_opening_tags : Bool := false
  keep_input_type_text_attr : Bool := false
  keep_spaces_between_attributes : Bool := false
  keep_ssi_comments : Bool := false
  minify_css : Bool := false
  minify_js : Bool := false
  preserve_brace_template_syntax : Bool := false
  preserve_chevron_percent_template_syntax : Bool := false
  remove_bangs : Bool := false
  remove_processing_instructions : Bool := false
deriving DecidableEq

/-- The default configuration: every flag `false`, as when `minhtml` is run
with no boolean flags. -/
def Cfg.default : Cfg := {}

/-! ## The CLI driver (`src/minhtml/src/main.rs`)

The driver is modelled as a pure function from a parsed command line and a
world (file system plus a description of which I/O operations fail) to a run
result (exit code, both output streams, final file system).  The library
entry point `minify_html::minify` that `main` calls lives outside this
repository's sources, so the driver model is parameterized by the minifier
function it drives. -/

/-- A parsed command line: the positional input paths, the optional
`--output` destination, and the boolean flags (already packed into `Cfg`),
mirroring `struct Cli` in `src/minhtml/src/main.rs`. -/
structure Cli where
  inputs : List String
  output : Option String
  cfg : Cfg
deriving DecidableEq

/-- The world a run of `minhtml` executes in: the file system (an association
list from path to contents), the bytes standard input holds, and which I/O
operations fail.  `writeCaps` maps a path to the number of bytes a failing
`write_all` manages to put down before erroring; `failCause` is the
OS-supplied description interpolated into error reports. -/
structure World where
  fs : List (String × Bytes)
  stdinData : Bytes
  openFails : List String
  readFails : List String
  createFails : List String
  writeCaps : List (String × Nat)
  stdinReadFails : Bool
  stdoutCap : Option Nat
  failCause : String
deriving DecidableEq

/-- Look a path up in the modelled file system. -/
def fsLookup (fs : List (String × Bytes)) (p : String) : Option Bytes :=
  match fs with
  | [] => none
  | (q, v) :: rest => if q = p then some v else fsLookup rest p

/-- Overwrite (or add) a path's contents in the modelled file system. -/
def fsUpdate (fs : List (String × Bytes)) (p : String) (v : Bytes) :
    List (String × Bytes) :=
  match fs with
  | [] => [(p, v)]
  | (q, w) :: rest =>
    if q = p then (q, v) :: rest else (q, w) :: fsUpdate rest p v

/-- The error line `io_expect` prints: `[<name>] <message>: <cause>`
(`src/minhtml/src/main.rs`, lines 86–96). -/
def errLine (name msg cause : String) : String :=
  "[" ++ name ++ "] " ++ msg ++ ": " ++ cause

/-- The diagnostic printed when `--output` is combined with multiple inputs
(`src/minhtml/src/main.rs`, line 101). -/
def conflictMsg : String :=
  "Cannot provide --output when multiple inputs are provided."

/-- Result of a run of the CLI driver: process exit code, the bytes written
to standard output, the lines written to standard error, and the final state
of the file system. -/
structure RunResult where
  exitCode : Nat
  stdout : Bytes
  stderr : List String
  fs : List (String × Bytes)
deriving DecidableEq

/-- Whether opening `p` for reading fails: the open call is in `w.openFails`,
or the file does not exist. -/
def openFailsAt (w : World) (p : String) : Bool :=
  p ∈ w.openFails || (fsLookup w.fs p).isNone

/-- Batch-mode processing of one input file, following the per-file closure
of `src/minhtml/src/main.rs`, lines 159–182: open the source, read it to the
end, minify, re-create (truncate) the same path, write the result, and print
the path on success.  Any failing step reports `[name] msg: cause` and
abandons this file only.  Returns the file system after this file together
with the stderr lines and stdout bytes it produced. -/
def processOne (minifyFn : Bytes → Cfg → Bytes) (cfg : Cfg) (w : World)
    (fs : List (String × Bytes)) (p : String) :
    List (String × Bytes) × List String × Bytes :=
  if openFailsAt w p then
    (fs, [errLine p "Could not open source file" w.failCause], [])
  else
    match fsLookup fs p with
    | none => (fs, [errLine p "Could not open source file" w.failCause], [])
    | some src =>
      if p ∈ w.readFails then
        (fs, [errLine p "Could not load source code" w.failCause], [])
      else
        let out := minifyFn src cfg
        if p ∈ w.createFails then
          (fs, [errLine p "Could not open output file" w.failCause], [])
        else
          match (w.writeCaps.lookup p) with
          | some n =>
            (fsUpdate fs p (out.take n),
             [errLine p "Could not save minified code" w.failCause], [])
          | none => (fsUpdate fs p out, [], p.data ++ ['\n'])

/-- Fold `processOne` over the batch inputs in order, accumulating the file
system, stderr lines and stdout bytes. -/
def processBatch (minifyFn : Bytes → Cfg → Bytes) (cfg : Cfg) (w : World)
    (fs : List (String × Bytes)) :
    List String → List (String × Bytes) × List String × Bytes
  | [] => (fs, [], [])
  | p :: rest =>
    let r := processOne minifyFn cfg w fs p
    let rec' := processBatch minifyFn cfg w r.1 rest
    (rec'.1, r.2.1 ++ rec'.2.1, r.2.2 ++ rec'.2.2)

/-- The input name single mode reports errors under: the first path, or
`"stdin"` when no path was given (`src/minhtml/src/main.rs`, lines 125–129). -/
def inputName (cli : Cli) : String :=
  match cli.inputs.head? with
  | some p => p
  | none => "stdin"

/-- Single-input / stdin mode, following `src/minhtml/src/main.rs` lines
123–157: resolve the input name (`"stdin"` when no path is given), open and
read the source, minify, open the destination (`--output` path or standard
output) and write.  Each failing step prints one error line and returns
early; `main` still exits 0. -/
def runSingle (minifyFn : Bytes → Cfg → Bytes) (cli : Cli) (w : World) :
    RunResult :=
  let name := inputName cli
  -- Source open (only a named file can fail to open).
  if cli.inputs.head?.isSome ∧ openFailsAt w name then
    ⟨0, [], [errLine name "Could not open source file" w.failCause], w.fs⟩
  else
    -- Source read.
    let srcRes : Option Bytes := match cli.inputs.head? with
      | some p => if p ∈ w.readFails then none else fsLookup w.fs p
      | none => if w.stdinReadFails then none else some w.stdinData
    match srcRes with
    | none =>
      ⟨0, [], [errLine name "Could not load source code" w.failCause], w.fs⟩
    | some src =>
      let out := minifyFn src cli.cfg
      match cli.output with
      | some q =>
        if q ∈ w.createFails then
          ⟨0, [], [errLine name "Could not open output file" w.failCause],
            w.fs⟩
        else
          match w.writeCaps.lookup q with
          | some n =>
            ⟨0, [], [errLine name "Could not save minified code" w.failCause],
              fsUpdate w.fs q (out.take n)⟩
          | none => ⟨0, [], [], fsUpdate w.fs q out⟩
      | none =>
        match w.stdoutCap with
        | some n =>
          ⟨0, out.take n,
            [errLine name "Could not save minified code" w.failCause], w.fs⟩
        | none => ⟨0, out, [], w.fs⟩

/-- The whole driver, following `fn main` in `src/minhtml/src/main.rs`:
reject `--output` with multiple inputs (exit 1 before touching any file),
otherwise dispatch on the number of inputs. -/
def run (minifyFn : Bytes → Cfg → Bytes) (cli : Cli) (w : World) :
    RunResult :=
  if cli.output.isSome ∧ 1 < cli.inputs.length then
    ⟨1, [], [conflictMsg], w.fs⟩
  else if cli.inputs.length ≤ 1 then
    runSingle minifyFn cli w
  else
    let r := processBatch minifyFn cli.cfg w w.fs cli.inputs
    ⟨0, r.2.2, r.2.1, r.1⟩

/-- Whether batch processing of `p` hits any I/O failure (open, read, create
or write). -/
def fileFails (w : World) (p : String) : Bool :=
  openFailsAt w p || decide (p ∈ w.readFails) || decide (p ∈ w.createFails)
    || (w.writeCaps.lookup p).isSome

/-- Whether single/stdin mode fails before the source bytes are in memory:
the named input fails to open or read, or reading standard input fails. -/
def singleSrcFails (cli : Cli) (w : World) : Bool :=
  match cli.inputs.head? with
  | some p => openFailsAt w p || decide (p ∈ w.readFails)
  | none => w.stdinReadFails

/-- The final contents of path `p` after batch processing, as a function of
its original contents: untouched on open/read/create failure, the first `n`
bytes of the minified output when `write_all` fails after `n` bytes, and the
full minified output on success. -/
def fileFinal (f : Bytes → Cfg → Bytes) (cfg : Cfg) (w : World) (p : String)
    (orig : Option Bytes) : Option Bytes :=
  if openFailsAt w p then orig
  else
    match orig with
    | none => none
    | some src =>
      if p ∈ w.readFails then some src
      else if p ∈ w.createFails then some src
      else
        match w.writeCaps.lookup p with
        | some n => some ((f src cfg).take n)
        | none => some (f src cfg)

/-- The identity minifier, used by the witness theorems to instantiate the
driver's minifier parameter. -/
def idMin : Bytes → Cfg → Bytes := fun s _ => s

/-- Concrete command line for the C10 witness: two inputs, no `--output`. -/
def c10Cli : Cli := ⟨["a", "b"], none, {}⟩

/-- Concrete world for the C10 witness: both files exist and `write_all` on
`"a"` fails after putting down 1 byte. -/
def c10World : World :=
  ⟨[("a", ['x', 'y']), ("b", ['u'])], [], [], [], [], [("a", 1)], false, none,
    "e"⟩

/-! ## Spec tables (§4.2)

`FORMATTING_TAGS` is transcribed exactly from
`src/src/rule/tag/formatting.rs`.  The remaining tables are not part of the
visible sources and are modelled from the design document. -/

/-- The formatting/inline tag table, exactly the `phf_set!` of
`src/src/rule/tag/formatting.rs` (MDN's inline text semantics list minus
`br`, plus `del` and `ins`). -/
def FORMATTING_TAGS : List String :=
  ["a", "abbr", "b", "bdi", "bdo", "cite", "data", "del", "dfn", "em", "i",
   "ins", "kbd", "mark", "q", "rp", "rt", "rtc", "ruby", "s", "samp", "small",
   "span", "strong", "sub", "sup", "time", "u", "var", "wbr"]

/-- Modelled from the spec: the void-element table (§4.2 "void elements
(never have children or closing tags)"); the table's members are not in the
visible sources, so the standard HTML void-element list is used. -/
def VOID_TAGS : List String :=
  ["area", "base", "br", "col", "embed", "hr", "img", "input", "link", "meta",
   "param", "source", "track", "wbr"]

/-- Modelled from the spec: elements whose content is whitespace-sensitive
(§4.3 "unless inside a raw-text ancestor"). -/
def WS_PRESERVE_TAGS : List String := ["pre", "textarea"]

/-- Modelled from the spec: the table of elements whose closing tag is
legally omittable given their position (§4.2); the visible sources do not
list its members, so it holds the elements the spec's own opening-tag
elision rule (`<html>`/`<head>`, §4.3) forces, plus `body`. -/
def OMITTABLE_CLOSING_TAGS : List String := ["html", "head", "body"]

/-- Whether a tag-name byte string is a member of one of the tables above. -/
def inTable (name : Bytes) (table : List String) : Bool :=
  table.any (fun t => t.data == name)

/-! ## Character helpers -/

/-- HTML whitespace: space, tab, line feed, form feed, carriage return. -/
def isWs (c : Char) : Bool :=
  c == ' ' || c == '\t' || c == '\n' || c == '\x0c' || c == '\r'

/-- ASCII letter. -/
def isAlphaChar (c : Char) : Bool :=
  (97 ≤ c.toNat && c.toNat ≤ 122) || (65 ≤ c.toNat && c.toNat ≤ 90)

/-- ASCII lower-casing of one character. -/
def lowerChar (c : Char) : Char :=
  if 65 ≤ c.toNat && c.toNat ≤ 90 then Char.ofNat (c.toNat + 32) else c

/-- ASCII lower-casing of a byte string (length preserving). -/
def lowerBytes (s : Bytes) : Bytes := s.map lowerChar

/-! ## AST (from `src/src/ast/mod.rs`)

The `HashMap<Vec<u8>, Vec<u8>>` of attributes is modelled as an association
list with unique keys; insertion keeps first-insertion order and replaces the
value on a repeated name (last write wins), which also fixes a deterministic
serialization order. -/

/-- Namespace of a node; the `Namespace` enum `ast/mod.rs` imports from
`crate::spec::tag::ns` (not among the visible sources), modelled from §3:
HTML, SVG, MathML. -/
inductive Namespace
  | html
  | svg
  | mathml
deriving DecidableEq

/-- `ElementClosingTag` from `src/src/ast/mod.rs`: how the source expressed
the element's closure. -/
inductive ElementClosingTag
  | omitted
  | present
  | selfClosing
  | void
deriving DecidableEq

/-- `ScriptOrStyleLang` from `src/src/ast/mod.rs`. -/
inductive ScriptOrStyleLang
  | css
  | data
  | js
deriving DecidableEq

/-- `NodeData` from `src/src/ast/mod.rs`: the tagged union of node kinds.
The `ended` flags record that the source ended before the construct's
terminator, in which case the terminator must not be synthesized. -/
inductive NodeData
  | bang (code : Bytes) (ended : Bool)
  | comment (code : Bytes) (ended : Bool)
  | element (attributes : List (Bytes × Bytes)) (children : List NodeData)
      (closing_tag : ElementClosingTag) (name : Bytes) (ns : Namespace)
  | instruction (code : Bytes) (ended : Bool)
  | scriptOrStyleContent (code : Bytes) (lang : ScriptOrStyleLang)
  | text (value : Bytes)

/-- A Document: the ordered forest of top-level nodes (§3). -/
abbrev Document := List NodeData

/-! ## Byte-string scanning helpers -/

/-- Whether `pat` is a prefix of `s`. -/
def startsWith : Bytes → Bytes → Bool
  | _, [] => true
  | [], _ :: _ => false
  | c :: s, p :: ps => c == p && startsWith s ps

/-- Split `s` at the first occurrence of `pat`: `some (before, after)` with
`s = before ++ pat ++ after`, or `none` when `pat` does not occur. -/
def splitAtPat (pat : Bytes) : Bytes → Option (Bytes × Bytes)
  | [] => if pat.isEmpty then some ([], []) else none
  | c :: rest =>
    if startsWith (c :: rest) pat then some ([], (c :: rest).drop pat.length)
    else
      match splitAtPat pat rest with
      | some (a, b) => some (c :: a, b)
      | none => none

/-- Insert an attribute: a repeated name replaces the stored value in place
(last occurrence wins), a new name is appended. -/
def insertAttr (attrs : List (Bytes × Bytes)) (k v : Bytes) :
    List (Bytes × Bytes) :=
  match attrs with
  | [] => [(k, v)]
  | (k0, v0) :: rest =>
    if k0 == k then (k0, v) :: rest else (k0, v0) :: insertAttr rest k v

/-- The double-quote character. -/
def dquote : Char := Char.ofNat 34

/-- The single-quote character. -/
def squote : Char := Char.ofNat 39

/-- The opening-brace character. -/
def lbrace : Char := Char.ofNat 123

/-- The closing-brace character. -/
def rbrace : Char := Char.ofNat 125

/-- Whether a tag-name byte string equals the given name. -/
def tagIs (n : Bytes) (t : String) : Bool := n == t.data

/-- Look an attribute up by name. -/
def attrsLookup (attrs : List (Bytes × Bytes)) (k : Bytes) : Option Bytes :=
  match attrs with
  | [] => none
  | (k0, v) :: r => if k0 == k then some v else attrsLookup r k

/-! ## Tokenizer/Parser (§4.1)

Modelled from the spec: the parser itself (`parse(bytes, config) ->
Document`) is not among the visible sources — only its AST (`ast/mod.rs`)
is — so the single left-to-right scan of §4.1 is reconstructed from the
design document: an open-element stack for matching closing tags, namespace
switching at `svg`/`math` and back at HTML embedding points, raw-text mode
for `script`/`style`, optional template-syntax passthrough, and `ended =
false` best-effort capture for every construct the source ends inside.  The
scan is expressed with a fuel argument; `parse` supplies more fuel than
there are input bytes, and every recursive call consumes at least one
byte. -/

/-- Result of scanning the attribute section of an open tag: the collected
attributes, whether the tag ended in `/>`, and the rest of the input after
`>`; or `unterminated` when the source ends inside the tag. -/
inductive AttrsResult
  | done (attrs : List (Bytes × Bytes)) (selfClosing : Bool) (rest : Bytes)
  | unterminated

/-- Scan the attribute section of an open tag (everything after the tag
name).  Whitespace, stray `/` and stray `=` between attributes are junk;
an attribute is a nonempty name, optionally `=` and a quoted or unquoted
value; `/>` at a token boundary reports self-closing syntax; end of input
inside the tag is `unterminated`. -/
def parseAttrs : Nat → List (Bytes × Bytes) → Bytes → AttrsResult
  | 0, _, _ => .unterminated
  | fuel + 1, acc, s =>
    match s.dropWhile isWs with
    | [] => .unterminated
    | '>' :: r => .done acc false r
    | '/' :: r =>
      match r with
      | '>' :: r2 => .done acc true r2
      | _ => parseAttrs fuel acc r
    | '=' :: r => parseAttrs fuel acc r
    | c :: r =>
      let name := (c :: r).takeWhile fun d =>
        !(isWs d || d == '>' || d == '/' || d == '=')
      let afterName := (c :: r).drop name.length
      match afterName.dropWhile isWs with
      | '=' :: r2 =>
        match r2.dropWhile isWs with
        | [] => .unterminated
        | d :: r4 =>
          if d == dquote then
            match splitAtPat [dquote] r4 with
            | some (v, after) => parseAttrs fuel (insertAttr acc name v) after
            | none => .unterminated
          else if d == squote then
            match splitAtPat [squote] r4 with
            | some (v, after) => parseAttrs fuel (insertAttr acc name v) after
            | none => .unterminated
          else
            let v := (d :: r4).takeWhile fun e => !(isWs e || e == '>')
            parseAttrs fuel (insertAttr acc name v) ((d :: r4).drop v.length)
      | _ => parseAttrs fuel (insertAttr acc name []) afterName

/-- Raw-text scan for `script`/`style` content: everything up to the first
case-insensitive `</closeName` followed by optional whitespace and `>` is
content; at end of input the whole remainder is content and the boundary is
reported missing. -/
def scanRaw (closeName : Bytes) : Nat → Bytes → Bytes × Option Bytes
  | 0, s => (s, none)
  | _ + 1, [] => ([], none)
  | fuel + 1, c :: rest =>
    let pat := '<' :: '/' :: closeName
    if startsWith (lowerBytes (c :: rest)) pat then
      match ((c :: rest).drop pat.length).dropWhile isWs with
      | '>' :: r => ([], some r)
      | _ =>
        let p := scanRaw closeName fuel rest
        (c :: p.1, p.2)
    else
      let p := scanRaw closeName fuel rest
      (c :: p.1, p.2)

/-- Try to consume the closing tag `</name ...>` at the head of `s`,
mirroring the closing-tag branch of the main scan. -/
def matchCloseTag (name : Bytes) (s : Bytes) : Option Bytes :=
  match s with
  | '<' :: '/' :: body =>
    let cname := body.takeWhile fun d => !(isWs d || d == '>')
    if cname == name then
      match (body.drop cname.length).dropWhile (fun d => !(d == '>')) with
      | _ :: r3 => some r3
      | [] => none
    else none
  | _ => none

/-- The `lang` recorded for a `script` element's content, from its `type`
attribute (§4.1: "`lang` chosen from the element's `type`/tag name"). -/
def scriptLang (attrs : List (Bytes × Bytes)) : ScriptOrStyleLang :=
  match attrsLookup attrs "type".data with
  | none => .js
  | some v =>
    if v == ([] : Bytes) || v == "text/javascript".data
        || v == "module".data then .js
    else .data

/-- The namespace an element named `tname` lives in, given the enclosing
namespace (§4.1: entering `svg`/`math` switches the namespace for the
subtree). -/
def elemNamespace (ns : Namespace) (tname : Bytes) : Namespace :=
  if tagIs tname "svg" then .svg
  else if tagIs tname "math" then .mathml
  else ns

/-- The namespace an element's children are parsed in: an HTML embedding
point (`foreignObject`) inside foreign content reverts to HTML for its
subtree. -/
def childNamespace (elemNs : Namespace) (tname : Bytes) : Namespace :=
  if !(elemNs == Namespace.html) && tagIs tname "foreignObject" then .html else elemNs

/-- One step of element handling after the attribute scan succeeded: void
elements, honored self-closing syntax in foreign content, `script`/`style`
raw-text mode, and the general recursive case with closing-tag matching.
`go` is the recursive scan at one less fuel; `ens` the element's
namespace. -/
def parseElem (cfg : Cfg)
    (go : Namespace → List Bytes → Bytes → Document × Bytes)
    (ns : Namespace) (stack : List Bytes) (tname : Bytes)
    (attrs : List (Bytes × Bytes)) (sc : Bool) (rest2 : Bytes)
    (ens : Namespace) : Document × Bytes :=
  if ens == Namespace.html && inTable tname VOID_TAGS then
    (.element attrs [] .void tname ens :: (go ns stack rest2).1,
      (go ns stack rest2).2)
  else if sc && !(ens == Namespace.html) then
    (.element attrs [] .selfClosing tname ens :: (go ns stack rest2).1,
      (go ns stack rest2).2)
  else if ens == Namespace.html
      && (tagIs tname "script" || tagIs tname "style") then
    match scanRaw tname (rest2.length + 1) rest2 with
    | (content, some r) =>
      (.element attrs
          [.scriptOrStyleContent content
            (if tagIs tname "style" then .css else scriptLang attrs)]
          .present tname ens :: (go ns stack r).1,
        (go ns stack r).2)
    | (content, none) =>
      ([.element attrs
          [.scriptOrStyleContent content
            (if tagIs tname "style" then .css else scriptLang attrs)]
          .omitted tname ens], [])
  else
    match matchCloseTag tname
        (go (childNamespace ens tname) (tname :: stack) rest2).2 with
    | some r4 =>
      (.element attrs
          (go (childNamespace ens tname) (tname :: stack) rest2).1
          .present tname ens :: (go ns stack r4).1,
        (go ns stack r4).2)
    | none =>
      (.element attrs
          (go (childNamespace ens tname) (tname :: stack) rest2).1
          .omitted tname ens
          :: (go ns stack
              (go (childNamespace ens tname) (tname :: stack) rest2).2).1,
        (go ns stack
          (go (childNamespace ens tname) (tname :: stack) rest2).2).2)

/-- Open-tag handling: scan the attribute section; the source ending inside
the tag degrades to a verbatim text capture of the whole remainder. -/
def parseOpenTag (cfg : Cfg)
    (go : Namespace → List Bytes → Bytes → Document × Bytes)
    (ns : Namespace) (stack : List Bytes) (c : Char) (rest : Bytes)
    (tname afterName : Bytes) : Document × Bytes :=
  match parseAttrs (afterName.length + 1) [] afterName with
  | .unterminated => ([.text (c :: rest)], [])
  | .done attrs sc rest2 =>
    parseElem cfg go ns stack tname attrs sc rest2 (elemNamespace ns tname)

/-- The main scan: parse a sibling list in namespace `ns` with the given
open-element stack, returning the parsed nodes and the unconsumed rest
(which begins with an enclosing element's closing tag, or is empty).
Consecutive text bytes come out as single-character `text` nodes; the rule
engine's merge pass joins them.  `go` is the recursive scan at one less
fuel. -/
def parseNodesStep (cfg : Cfg)
    (go : Namespace → List Bytes → Bytes → Document × Bytes)
    (ns : Namespace) (stack : List Bytes) (s : Bytes) : Document × Bytes :=
    match s with
    | [] => ([], [])
    | c :: rest =>
      if c == '<' then
        if startsWith rest ['!', '-', '-'] then
          match splitAtPat ['-', '-', '>'] (rest.drop 3) with
          | some (code, after) =>
            (.comment code true :: (go ns stack after).1,
              (go ns stack after).2)
          | none => ([.comment (rest.drop 3) false], [])
        else if startsWith rest ['!'] then
          match (rest.drop 1).drop
              ((rest.drop 1).takeWhile fun d => !(d == '>')).length with
          | _ :: r =>
            (.bang ((rest.drop 1).takeWhile fun d => !(d == '>')) true
                :: (go ns stack r).1,
              (go ns stack r).2)
          | [] =>
            ([.bang ((rest.drop 1).takeWhile fun d => !(d == '>')) false], [])
        else if startsWith rest ['?'] then
          match splitAtPat ['?', '>'] (rest.drop 1) with
          | some (code, after) =>
            (.instruction code true :: (go ns stack after).1,
              (go ns stack after).2)
          | none => ([.instruction (rest.drop 1) false], [])
        else if cfg.preserve_chevron_percent_template_syntax
            && startsWith rest ['%'] then
          match splitAtPat ['%', '>'] (rest.drop 1) with
          | some (inner, after) =>
            (.text ('<' :: '%' :: (inner ++ ['%', '>']))
                :: (go ns stack after).1,
              (go ns stack after).2)
          | none => ([.text (c :: rest)], [])
        else if startsWith rest ['/'] then
          match ((rest.drop 1).drop
              ((rest.drop 1).takeWhile fun d =>
                !(isWs d || d == '>')).length).dropWhile
              (fun d => !(d == '>')) with
          | _ :: r3 =>
            if stack.contains ((rest.drop 1).takeWhile fun d =>
                !(isWs d || d == '>')) then ([], c :: rest)
            else go ns stack r3
          | [] => ([], [])
        else
          match rest with
          | [] => ([.text ['<']], [])
          | d :: _ =>
            if isAlphaChar d then
              parseOpenTag cfg go ns stack c rest
                (rest.takeWhile fun e => !(isWs e || e == '/' || e == '>'))
                (rest.drop
                  (rest.takeWhile fun e =>
                    !(isWs e || e == '/' || e == '>')).length)
            else
              (.text ['<'] :: (go ns stack rest).1, (go ns stack rest).2)
      else if cfg.preserve_brace_template_syntax
          && startsWith (c :: rest) [lbrace, lbrace] then
        match splitAtPat [rbrace, rbrace] ((c :: rest).drop 2) with
        | some (inner, after) =>
          (.text ([lbrace, lbrace] ++ inner ++ [rbrace, rbrace])
              :: (go ns stack after).1,
            (go ns stack after).2)
        | none => ([.text (c :: rest)], [])
      else if cfg.preserve_brace_template_syntax
          && startsWith (c :: rest) [lbrace, '#'] then
        match splitAtPat ['#', rbrace] ((c :: rest).drop 2) with
        | some (inner, after) =>
          (.text ([lbrace, '#'] ++ inner ++ ['#', rbrace])
              :: (go ns stack after).1,
            (go ns stack after).2)
        | none => ([.text (c :: rest)], [])
      else if cfg.preserve_brace_template_syntax
          && startsWith (c :: rest) [lbrace, '%'] then
        match splitAtPat ['%', rbrace] ((c :: rest).drop 2) with
        | some (inner, after) =>
          (.text ([lbrace, '%'] ++ inner ++ ['%', rbrace])
              :: (go ns stack after).1,
            (go ns stack after).2)
        | none => ([.text (c :: rest)], [])
      else
        (.text [c] :: (go ns stack rest).1, (go ns stack rest).2)

/-- The main scan, fuelled: each recursive step consumes at least one input
byte, so `parse`'s fuel of `length + 1` always suffices. -/
def parseNodes (cfg : Cfg) : Nat → Namespace → List Bytes → Bytes →
    Document × Bytes
  | 0, _, _, s => ([], s)
  | fuel + 1, ns, stack, s => parseNodesStep cfg (parseNodes cfg fuel) ns stack s

/-- Modelled from the spec: `parse(bytes, config) -> Document` (§4.1), a
total function over arbitrary byte input. -/
def parse (src : Bytes) (cfg : Cfg) : Document :=
  (parseNodes cfg (src.length + 1) .html [] src).1

/-! ## Minifier (Rule Engine, §4.3) and Serializer (§4.4)

Modelled from the spec: the rule engine and serializer are not among the
visible sources.  The engine is three tree passes — node removal
(comments/bangs/instructions per configuration), merging of adjacent text
nodes, and whitespace collapse driven by the formatting-tag table — followed
by a mechanical serializer that makes the attribute-quoting, default-
attribute, opening-tag-elision and closing-tag-elision decisions of §4.3.
The external CSS/JS delegates (§4.3 "Script/Style Delegate") are out of
scope per §1 and are modelled as the identity transform, so
`ScriptOrStyleContent` is always emitted byte-exactly. -/

/-- Whether a comment is an SSI comment (`<!--#`, §4.2). -/
def isSSI (code : Bytes) : Bool := startsWith code ['#']

/-- Whether a comment node is retained: `--keep-comments` keeps all,
`--keep-ssi-comments` keeps SSI comments. -/
def keepComment (cfg : Cfg) (code : Bytes) : Bool :=
  cfg.keep_comments || (cfg.keep_ssi_comments && isSSI code)

mutual

/-- Removal pass on one node: recurse into element children. -/
def removeNode (cfg : Cfg) : NodeData → NodeData
  | .element a c ct nm ns => .element a (removeNodes cfg c) ct nm ns
  | n => n

/-- Removal pass: drop comments, bangs and processing instructions the
configuration says to drop, recursively. -/
def removeNodes (cfg : Cfg) : List NodeData → List NodeData
  | [] => []
  | .comment code ended :: rest =>
    if keepComment cfg code then .comment code ended :: removeNodes cfg rest
    else removeNodes cfg rest
  | .bang code ended :: rest =>
    if cfg.remove_bangs then removeNodes cfg rest
    else .bang code ended :: removeNodes cfg rest
  | .instruction code ended :: rest =>
    if cfg.remove_processing_instructions then removeNodes cfg rest
    else .instruction code ended :: removeNodes cfg rest
  | n :: rest => removeNode cfg n :: removeNodes cfg rest

end

/-- Merge adjacent text nodes of one sibling list into single text nodes. -/
def mergeAdj : List NodeData → List NodeData
  | [] => []
  | .text a :: rest =>
    match mergeAdj rest with
    | .text b :: r2 => .text (a ++ b) :: r2
    | r2 => .text a :: r2
  | n :: rest => n :: mergeAdj rest

mutual

/-- Merge pass on one node: merge adjacent texts inside every child list. -/
def mergeNode : NodeData → NodeData
  | .element a c ct nm ns => .element a (mergeAdj (mergeList c)) ct nm ns
  | n => n

/-- Merge pass on a sibling list (children handled per node; the top level
of the list itself is merged by the caller via `mergeAdj`). -/
def mergeList : List NodeData → List NodeData
  | [] => []
  | n :: rest => mergeNode n :: mergeList rest

end

/-- Drop trailing whitespace. -/
def trimRight (v : Bytes) : Bytes := (v.reverse.dropWhile isWs).reverse

/-- Collapse every whitespace run to a single space. -/
def collapseWs : Bytes → Bytes
  | [] => []
  | [c] => if isWs c then [' '] else [c]
  | c :: d :: rest =>
    if isWs c then
      if isWs d then collapseWs (d :: rest)
      else ' ' :: collapseWs (d :: rest)
    else c :: collapseWs (d :: rest)

/-- Split a text value into plain and template segments: when template
passthrough is enabled, a `{{`/`{#`/`{%`/`<%` span (to its closer, or to the
end when unclosed) is a raw segment that whitespace collapse must not
touch (§4.1, §8). -/
def segmentize (cfg : Cfg) : Nat → Bytes → List (Bool × Bytes)
  | 0, s => if s.isEmpty then [] else [(false, s)]
  | _ + 1, [] => []
  | fuel + 1, c :: rest =>
    let s := c :: rest
    if cfg.preserve_brace_template_syntax
        && startsWith s [lbrace, lbrace] then
      match splitAtPat [rbrace, rbrace] (s.drop 2) with
      | some (inner, after) =>
        (true, [lbrace, lbrace] ++ inner ++ [rbrace, rbrace])
          :: segmentize cfg fuel after
      | none => [(true, s)]
    else if cfg.preserve_brace_template_syntax
        && startsWith s [lbrace, '#'] then
      match splitAtPat ['#', rbrace] (s.drop 2) with
      | some (inner, after) =>
        (true, [lbrace, '#'] ++ inner ++ ['#', rbrace])
          :: segmentize cfg fuel after
      | none => [(true, s)]
    else if cfg.preserve_brace_template_syntax
        && startsWith s [lbrace, '%'] then
      match splitAtPat ['%', rbrace] (s.drop 2) with
      | some (inner, after) =>
        (true, [lbrace, '%'] ++ inner ++ ['%', rbrace])
          :: segmentize cfg fuel after
      | none => [(true, s)]
    else if cfg.preserve_chevron_percent_template_syntax
        && startsWith s ['<', '%'] then
      match splitAtPat ['%', '>'] (s.drop 2) with
      | some (inner, after) =>
        (true, ['<', '%'] ++ inner ++ ['%', '>'])
          :: segmentize cfg fuel after
      | none => [(true, s)]
    else
      match segmentize cfg fuel rest with
      | (false, chunk) :: t => (false, c :: chunk) :: t
      | r => (false, [c]) :: r

/-- Process a segment list: raw segments pass through untouched; plain
segments have whitespace runs collapsed to one space, plus edge trimming
when the corresponding boundary is block-level. -/
def procSegs (doR : Bool) : Bool → List (Bool × Bytes) → Bytes
  | _, [] => []
  | doL, (israw, chunk) :: rest =>
    let piece :=
      if israw then chunk
      else
        let c1 := collapseWs chunk
        let c2 := if doL then c1.dropWhile isWs else c1
        if rest.isEmpty && doR then trimRight c2 else c2
    piece ++ procSegs doR false rest

/-- Text minification (§4.3 "Text"): collapse whitespace runs to a single
space, trim fully at a block-level boundary, keep one space at an
inline/formatting boundary; template segments pass through verbatim. -/
def minifyText (cfg : Cfg) (doL doR : Bool) (v : Bytes) : Bytes :=
  procSegs doR doL (segmentize cfg (v.length + 1) v)

/-- Whether `name` is in the formatting/inline table. -/
def isFormattingTag (name : Bytes) : Bool := inTable name FORMATTING_TAGS

/-- Whether a neighbouring node makes a block-level boundary for whitespace
purposes: a non-formatting element does; a formatting element, comment,
bang, instruction or text does not. -/
def isBlockish (n : NodeData) : Bool :=
  match n with
  | .element _ _ _ name _ => !(isFormattingTag name)
  | _ => false

mutual

/-- Whitespace pass on one node: recurse into element children with the
element's own boundary kind; `pre` records a whitespace-sensitive
ancestor. -/
def wsNode (cfg : Cfg) (pre : Bool) : NodeData → NodeData
  | .element a c ct name ns =>
    let pre' := pre || inTable name WS_PRESERVE_TAGS
    let pb := !(isFormattingTag name)
    .element a (wsList cfg pre' pb pb c) ct name ns
  | n => n

/-- Whitespace pass on a sibling list: `parentB` is the boundary kind of the
enclosing element (block or not), `leftB` whether the left neighbour of the
next node is block-level.  Text nodes that collapse to nothing are
dropped. -/
def wsList (cfg : Cfg) (pre : Bool) (parentB leftB : Bool) :
    List NodeData → List NodeData
  | [] => []
  | .text v :: rest =>
    if pre then .text v :: wsList cfg pre parentB false rest
    else
      let rightB := match rest with
        | [] => parentB
        | m :: _ => isBlockish m
      let v' := minifyText cfg leftB rightB v
      if v'.isEmpty then wsList cfg pre parentB leftB rest
      else .text v' :: wsList cfg pre parentB false rest
  | n :: rest =>
    wsNode cfg pre n :: wsList cfg pre parentB (isBlockish n) rest

end

/-- The whole rule-engine transform: removal, text merging, whitespace. -/
def transform (cfg : Cfg) (doc : Document) : Document :=
  wsList cfg false true true (mergeAdj (mergeList (removeNodes cfg doc)))

/-- The backquote character. -/
def bquote : Char := Char.ofNat 96

/-- Whether an attribute value can be emitted unquoted: nonempty, no
whitespace, no `>`, not starting with a quote; with
`--ensure-spec-compliant-unquoted-attribute-values`, additionally none of
the characters the WHATWG specification prohibits. -/
def canUnquoted (cfg : Cfg) (v : Bytes) : Bool :=
  !v.isEmpty &&
  v.all (fun c => !(isWs c || c == '>')) &&
  (match v with
   | c :: _ => !(c == dquote || c == squote)
   | [] => true) &&
  (!cfg.ensure_spec_compliant_unquoted_attribute_values ||
    v.all fun c =>
      !(c == dquote || c == squote || c == bquote || c == '<' || c == '='
        || c == '>'))

/-- Serialize one attribute (name, `=`, value in the cheapest faithful
form): empty value as bare name, unquoted when allowed, else the quote
character the value does not contain. -/
def serializeAttr (cfg : Cfg) (k v : Bytes) : Bytes :=
  if v.isEmpty then k
  else if canUnquoted cfg v then k ++ '=' :: v
  else if !(v.contains dquote) then k ++ '=' :: dquote :: (v ++ [dquote])
  else if !(v.contains squote) then k ++ '=' :: squote :: (v ++ [squote])
  else k ++ '=' :: dquote ::
    (v.filter (fun c => !(c == dquote)) ++ [dquote])

/-- Whether a serialized attribute ends in a quote character (no separator
is needed after it). -/
def endsWithQuote (part : Bytes) : Bool :=
  match part.getLast? with
  | some c => c == dquote || c == squote
  | none => false

/-- Serialize an attribute list; the separator before an attribute is one
space, elided after a quoted value unless
`--keep-spaces-between-attributes`. -/
def serializeAttrsGo (cfg : Cfg) : Bool → List (Bytes × Bytes) → Bytes
  | _, [] => []
  | prevQ, (k, v) :: rest =>
    let part := serializeAttr cfg k v
    let sep : Bytes :=
      if cfg.keep_spaces_between_attributes || !prevQ then [' '] else []
    sep ++ part ++ serializeAttrsGo cfg (endsWithQuote part) rest

/-- Default-valued attribute removal (§4.3): `type=text` on `input`
elements, unless `--keep-input-type-text-attr`. -/
def filterAttrs (cfg : Cfg) (name : Bytes) (attrs : List (Bytes × Bytes)) :
    List (Bytes × Bytes) :=
  if tagIs name "input" && !cfg.keep_input_type_text_attr then
    attrs.filter fun kv => !(kv.1 == "type".data && kv.2 == "text".data)
  else attrs

/-- Whether a bang is a DOCTYPE declaration. -/
def isDoctype (code : Bytes) : Bool :=
  startsWith (lowerBytes code) "doctype".data

mutual

/-- Serialize one node.  `omitOk` says this node sits in a position where an
omittable closing tag may be dropped (last sibling, or followed by an
element). -/
def serializeNode (cfg : Cfg) (omitOk : Bool) : NodeData → Bytes
  | .text v => v
  | .comment code ended =>
    '<' :: '!' :: '-' :: '-' ::
      (code ++ if ended then ['-', '-', '>'] else [])
  | .bang code ended =>
    let code' :=
      if isDoctype code && !cfg.do_not_minify_doctype then lowerBytes code
      else code
    '<' :: '!' :: (code' ++ if ended then ['>'] else [])
  | .instruction code ended =>
    '<' :: '?' :: (code ++ if ended then ['?', '>'] else [])
  | .scriptOrStyleContent code _ => code
  | .element attrs children ct name ns =>
    let attrs' := filterAttrs cfg name attrs
    let emitClose := ct == ElementClosingTag.present
      && !(!cfg.keep_closing_tags && ns == Namespace.html
           && inTable name OMITTABLE_CLOSING_TAGS && omitOk)
    let elideOpen := !cfg.keep_html_and_head_opening_tags
      && (tagIs name "html" || tagIs name "head") && attrs.isEmpty
      && ns == Namespace.html && !emitClose
    let openT : Bytes :=
      if elideOpen then []
      else '<' :: (name ++ serializeAttrsGo cfg false attrs'
        ++ (if ct == ElementClosingTag.selfClosing then ['/', '>']
            else ['>']))
    let closeT : Bytes :=
      if emitClose then '<' :: '/' :: (name ++ ['>'])
      else []
    openT ++ serializeList cfg children ++ closeT

/-- Serialize a sibling list, computing each node's omission position from
its successor. -/
def serializeList (cfg : Cfg) : List NodeData → Bytes
  | [] => []
  | n :: rest =>
    let omitOk := match rest with
      | [] => true
      | .element _ _ _ _ _ :: _ => true
      | .text _ :: _ => true
      | _ => false
    serializeNode cfg omitOk n ++ serializeList cfg rest

end

/-- Modelled from the spec: `minify(Document, config) -> bytes` (§4.3), the
deterministic rule engine plus serializer. -/
def minifyDoc (cfg : Cfg) (doc : Document) : Bytes :=
  serializeList cfg (transform cfg doc)

/-- The full pipeline `parse` + rule engine + serializer: the library entry
point `minify_html::minify(&src, &cfg)` that the CLI drives. -/
def minify (src : Bytes) (cfg : Cfg) : Bytes :=
  minifyDoc cfg (parse src cfg)

/-! ## Verification-layer definitions -/

/-- Whether an attribute list has pairwise-distinct names. -/
def keysDistinct : List (Bytes × Bytes) → Bool
  | [] => true
  | (k, _) :: r => !(r.any fun kv => kv.1 == k) && keysDistinct r

mutual

/-- Whether every element in a node's subtree has an attribute map with
pairwise-distinct names. -/
def attrsOkNode : NodeData → Bool
  | .element a c _ _ _ => keysDistinct a && attrsOkList c
  | _ => true

/-- `attrsOkNode` over a node list. -/
def attrsOkList : List NodeData → Bool
  | [] => true
  | n :: r => attrsOkNode n && attrsOkList r

end

mutual

/-- Per-node serialization budget: an upper bound on the bytes any
serialization of the node can emit, used to compare output with source
consumption. -/
def upperSerNode (cfg : Cfg) : NodeData → Nat
  | .text v => v.length
  | .comment code ended => 4 + code.length + (if ended then 3 else 0)
  | .bang code ended => 2 + code.length + (if ended then 1 else 0)
  | .instruction code ended => 2 + code.length + (if ended then 2 else 0)
  | .scriptOrStyleContent code _ => code.length
  | .element attrs children ct name _ =>
    1 + name.length + (serializeAttrsGo cfg false attrs).length
      + (if ct == ElementClosingTag.selfClosing then 2 else 1)
      + upperSerList cfg children
      + (if ct == ElementClosingTag.present then 3 + name.length else 0)

/-- `upperSerNode` summed over a list. -/
def upperSerList (cfg : Cfg) : List NodeData → Nat
  | [] => 0
  | n :: l => upperSerNode cfg n + upperSerList cfg l

end

/-- Total byte count of a segment list. -/
def segLen : List (Bool × Bytes) → Nat
  | [] => 0
  | (_, chunk) :: rest => chunk.length + segLen rest

/-- Length of the separator `serializeAttrsGo` emits before the next
attribute, given the flag recording whether the previous part ended in a
quote. -/
def sepL (cfg : Cfg) (b : Bool) : Nat :=
  if cfg.keep_spaces_between_attributes || !b then 1 else 0

/-- The flag `serializeAttrsGo` carries after serializing `l`, starting from
flag `b`: whether the last emitted part ends in a quote. -/
def serAccQ (cfg : Cfg) : Bool → List (Bytes × Bytes) → Bool
  | b, [] => b
  | _, (k, v) :: rest =>
    serAccQ cfg (endsWithQuote (serializeAttr cfg k v)) rest

/-- Whether the head of the remaining attribute input starts a name token
immediately: no leading whitespace and not a tag-end or junk byte. -/
def tokenStart : Bytes → Bool
  | [] => false
  | c :: _ => !(isWs c || c == '>' || c == '/' || c == '=')

/-- The one-byte credit available to the attribute scan: a separator byte
can be saved only when the next token starts immediately and the
accumulated serialization does not end in a quote. -/
def attrMargin (cfg : Cfg) (acc : List (Bytes × Bytes)) (s : Bytes) : Nat :=
  if tokenStart s && !(serAccQ cfg false acc) then 1 else 0

/-- Whether the attribute list stores key `k`. -/
def containsKey : List (Bytes × Bytes) → Bytes → Bool
  | [], _ => false
  | (k0, _) :: rest, k => k0 == k || containsKey rest k

/-! ## Theorems -/

theorem fsLookup_update_self (fs : List (String × Bytes)) (p : String)
    (v : Bytes) : fsLookup (fsUpdate fs p v) p = some v := by
  induction fs with
  | nil => simp [fsUpdate, fsLookup]
  | cons hd t ih =>
    obtain ⟨q, u⟩ := hd
    by_cases h : q = p
    · simp [fsUpdate, fsLookup, h]
    · simp [fsUpdate, fsLookup, h, ih]

theorem fsLookup_update_ne (fs : List (String × Bytes)) (p q : String)
    (v : Bytes) (h : p ≠ q) : fsLookup (fsUpdate fs p v) q = fsLookup fs q := by
  induction fs with
  | nil => simp [fsUpdate, fsLookup, h]
  | cons hd t ih =>
    obtain ⟨r, u⟩ := hd
    by_cases hr : r = p
    · subst hr; simp [fsUpdate, fsLookup, h]
    · simp [fsUpdate, fsLookup, hr, ih]

theorem processOne_fs_ne (f : Bytes → Cfg → Bytes) (cfg : Cfg) (w : World)
    (fs : List (String × Bytes)) (p q : String) (h : p ≠ q) :
    fsLookup (processOne f cfg w fs p).1 q = fsLookup fs q := by
  unfold processOne
  split
  · rfl
  · split
    · rfl
    · split
      · rfl
      · split
        · rfl
        · split
          · exact fsLookup_update_ne _ _ _ _ h
          · exact fsLookup_update_ne _ _ _ _ h

theorem processOne_fs_self (f : Bytes → Cfg → Bytes) (cfg : Cfg) (w : World)
    (fs : List (String × Bytes)) (p : String)
    (hsame : fsLookup fs p = fsLookup w.fs p) :
    fsLookup (processOne f cfg w fs p).1 p
      = fileFinal f cfg w p (fsLookup w.fs p) := by
  unfold processOne fileFinal
  by_cases hop : openFailsAt w p
  · simp [hop, hsame]
  · simp only [hop, if_false, Bool.false_eq_true, ite_false]
    rw [hsame]
    cases hv : fsLookup w.fs p with
    | none => simpa using hsame.trans hv
    | some src =>
      by_cases hrd : p ∈ w.readFails
      · simp [hrd, hsame, hv]
      · simp only [hrd, if_false, ite_false]
        by_cases hcr : p ∈ w.createFails
        · simp [hcr, hsame, hv]
        · simp only [hcr, if_false, ite_false]
          cases hw : w.writeCaps.lookup p with
          | none => simp [fsLookup_update_self]
          | some n => simp [fsLookup_update_self]

theorem processOne_fails (f : Bytes → Cfg → Bytes) (cfg : Cfg) (w : World)
    (fs : List (String × Bytes)) (p : String)
    (hsame : fsLookup fs p = fsLookup w.fs p) (hf : fileFails w p = true) :
    ∃ msg, (processOne f cfg w fs p).2.1 = [errLine p msg w.failCause] := by
  unfold processOne
  by_cases hop : openFailsAt w p
  · exact ⟨"Could not open source file", by simp [hop]⟩
  · simp only [hop, Bool.false_eq_true, ite_false]
    rw [hsame]
    cases hv : fsLookup w.fs p with
    | none =>
      refine ⟨"Could not open source file", by simp⟩
    | some src =>
      by_cases hrd : p ∈ w.readFails
      · exact ⟨"Could not load source code", by simp [hrd]⟩
      · simp only [hrd, ite_false]
        by_cases hcr : p ∈ w.createFails
        · exact ⟨"Could not open output file", by simp [hcr]⟩
        · simp only [hcr, ite_false]
          cases hw : w.writeCaps.lookup p with
          | some n => exact ⟨"Could not save minified code", by simp⟩
          | none =>
            exfalso
            simp [fileFails, hop, hrd, hcr, hw, openFailsAt, hv] at hf hop
            simp [hf] at hop

theorem processOne_ok (f : Bytes → Cfg → Bytes) (cfg : Cfg) (w : World)
    (fs : List (String × Bytes)) (p : String)
    (hsame : fsLookup fs p = fsLookup w.fs p) (hf : fileFails w p = false) :
    (processOne f cfg w fs p).2.1 = []
      ∧ (processOne f cfg w fs p).2.2 = p.data ++ ['\n'] := by
  simp only [fileFails, Bool.or_eq_false_iff, decide_eq_false_iff_not] at hf
  obtain ⟨⟨⟨hop, hrd⟩, hcr⟩, hw⟩ := hf
  cases hw2 : w.writeCaps.lookup p with
  | some n => rw [hw2] at hw; simp at hw
  | none =>
    have hv : ∃ src, fsLookup w.fs p = some src := by
      simp only [openFailsAt, Bool.or_eq_false_iff] at hop
      cases h : fsLookup w.fs p with
      | none => rw [h] at hop; simp at hop
      | some src => exact ⟨src, rfl⟩
    obtain ⟨src, hv⟩ := hv
    have hop2 : openFailsAt w p = false := by
      simp only [openFailsAt, Bool.or_eq_false_iff] at hop ⊢
      exact hop
    unfold processOne
    simp [hop2, hsame, hv, hrd, hcr, hw2]

theorem processBatch_fs_notmem (f : Bytes → Cfg → Bytes) (cfg : Cfg)
    (w : World) : ∀ (inputs : List String) (fs : List (String × Bytes))
    (p : String), p ∉ inputs →
    fsLookup (processBatch f cfg w fs inputs).1 p = fsLookup fs p := by
  intro inputs
  induction inputs with
  | nil => intro fs p _; rfl
  | cons q rest ih =>
    intro fs p hp
    simp only [List.mem_cons, not_or] at hp
    simp only [processBatch]
    rw [ih _ p hp.2]
    exact processOne_fs_ne f cfg w fs q p (fun h => hp.1 h.symm)

theorem processBatch_fs_mem (f : Bytes → Cfg → Bytes) (cfg : Cfg)
    (w : World) : ∀ (inputs : List String) (fs : List (String × Bytes))
    (p : String), inputs.Nodup → p ∈ inputs →
    fsLookup fs p = fsLookup w.fs p →
    fsLookup (processBatch f cfg w fs inputs).1 p
      = fileFinal f cfg w p (fsLookup w.fs p) := by
  intro inputs
  induction inputs with
  | nil => intro fs p _ hp; cases hp
  | cons q rest ih =>
    intro fs p hnd hp hsame
    simp only [processBatch]
    by_cases hq : p = q
    · subst hq
      rw [processBatch_fs_notmem f cfg w rest _ p (List.nodup_cons.mp hnd).1]
      exact processOne_fs_self f cfg w fs p hsame
    · have hin : p ∈ rest := by
        cases List.mem_cons.mp hp with
        | inl h => exact absurd h hq
        | inr h => exact h
      apply ih _ p (List.nodup_cons.mp hnd).2 hin
      rw [processOne_fs_ne f cfg w fs q p (fun h => hq h.symm)]
      exact hsame

theorem processBatch_streams (f : Bytes → Cfg → Bytes) (cfg : Cfg)
    (w : World) : ∀ (inputs : List String) (fs : List (String × Bytes))
    (p : String), inputs.Nodup → p ∈ inputs →
    fsLookup fs p = fsLookup w.fs p →
    (fileFails w p = true →
      ∃ msg, errLine p msg w.failCause
        ∈ (processBatch f cfg w fs inputs).2.1) ∧
    (fileFails w p = false →
      ∃ a b, (processBatch f cfg w fs inputs).2.2
        = a ++ (p.data ++ ['\n']) ++ b) := by
  intro inputs
  induction inputs with
  | nil => intro fs p _ hp; cases hp
  | cons q rest ih =>
    intro fs p hnd hp hsame
    simp only [processBatch]
    by_cases hq : p = q
    · subst hq
      constructor
      · intro hf
        obtain ⟨msg, hmsg⟩ := processOne_fails f cfg w fs p hsame hf
        exact ⟨msg, by rw [hmsg]; simp⟩
      · intro hf
        obtain ⟨h1, h2⟩ := processOne_ok f cfg w fs p hsame hf
        exact ⟨[], (processBatch f cfg w (processOne f cfg w fs p).1 rest).2.2,
          by rw [h2]; simp⟩
    · have hin : p ∈ rest := by
        cases List.mem_cons.mp hp with
        | inl h => exact absurd h hq
        | inr h => exact h
      have hsame2 : fsLookup (processOne f cfg w fs q).1 p
          = fsLookup w.fs p := by
        rw [processOne_fs_ne f cfg w fs q p (fun h => hq h.symm)]
        exact hsame
      obtain ⟨e1, e2⟩ :=
        ih (processOne f cfg w fs q).1 p (List.nodup_cons.mp hnd).2 hin hsame2
      constructor
      · intro hf
        obtain ⟨msg, hmsg⟩ := e1 hf
        exact ⟨msg, by simp [hmsg]⟩
      · intro hf
        obtain ⟨a, b, hab⟩ := e2 hf
        exact ⟨(processOne f cfg w fs q).2.2 ++ a, b, by rw [hab]; simp⟩

theorem runSingle_exitCode (f : Bytes → Cfg → Bytes) (cli : Cli)
    (w : World) : (runSingle f cli w).exitCode = 0 := by
  simp only [runSingle]
  repeat' split
  all_goals rfl

theorem runSingle_stderr (f : Bytes → Cfg → Bytes) (cli : Cli) (w : World) :
    (runSingle f cli w).stderr = [] ∨
    ∃ msg, (runSingle f cli w).stderr
      = [errLine (inputName cli) msg w.failCause] := by
  simp only [runSingle]
  repeat' split
  all_goals first
    | exact Or.inl rfl
    | exact Or.inr ⟨_, rfl⟩

theorem runSingle_openFail (f : Bytes → Cfg → Bytes) (cli : Cli) (w : World)
    (p : String) (hp : cli.inputs = [p]) (hof : openFailsAt w p = true) :
    runSingle f cli w
      = ⟨0, [], [errLine p "Could not open source file" w.failCause],
          w.fs⟩ := by
  have hin : inputName cli = p := by simp [inputName, hp]
  simp only [runSingle, hin, hp]
  rw [if_pos ⟨by simp, hof⟩]

theorem runSingle_readFail_named (f : Bytes → Cfg → Bytes) (cli : Cli)
    (w : World) (p : String) (hp : cli.inputs = [p])
    (hof : openFailsAt w p = false) (hrf : p ∈ w.readFails) :
    runSingle f cli w
      = ⟨0, [], [errLine p "Could not load source code" w.failCause],
          w.fs⟩ := by
  have hin : inputName cli = p := by simp [inputName, hp]
  simp only [runSingle, hin, hp]
  rw [if_neg (by simp [hof])]
  simp [hrf]

theorem runSingle_readFail_stdin (f : Bytes → Cfg → Bytes) (cli : Cli)
    (w : World) (hp : cli.inputs = [])
    (hsf : w.stdinReadFails = true) :
    runSingle f cli w
      = ⟨0, [], [errLine "stdin" "Could not load source code" w.failCause],
          w.fs⟩ := by
  have hin : inputName cli = "stdin" := by simp [inputName, hp]
  simp only [runSingle, hin, hp]
  rw [if_neg (by simp)]
  simp [hsf]

theorem runSingle_createFail (f : Bytes → Cfg → Bytes) (cli : Cli)
    (w : World) (q : String) (hsf : singleSrcFails cli w = false)
    (hq : cli.output = some q) (hcf : q ∈ w.createFails) :
    runSingle f cli w
      = ⟨0, [],
          [errLine (inputName cli) "Could not open output file"
            w.failCause], w.fs⟩ := by
  unfold singleSrcFails at hsf
  simp only [runSingle, hq]
  cases hh : cli.inputs.head? with
  | some p =>
    rw [hh] at hsf
    simp at hsf
    obtain ⟨hof, hrf⟩ := hsf
    have hin : inputName cli = p := by simp [inputName, hh]
    rw [hin]
    rw [if_neg (by simp [hof])]
    have hv : ∃ src, fsLookup w.fs p = some src := by
      simp only [openFailsAt, Bool.or_eq_false_iff] at hof
      cases hl : fsLookup w.fs p with
      | none => rw [hl] at hof; simp at hof
      | some src => exact ⟨src, rfl⟩
    obtain ⟨src, hv⟩ := hv
    simp [hrf, hv, hcf]
  | none =>
    rw [hh] at hsf
    simp at hsf
    rw [if_neg (by simp)]
    simp [hsf, hcf]

theorem runSingle_writeFail_file (f : Bytes → Cfg → Bytes) (cli : Cli)
    (w : World) (q : String) (n : Nat)
    (hsf : singleSrcFails cli w = false) (hq : cli.output = some q)
    (hcf : q ∉ w.createFails) (hwc : w.writeCaps.lookup q = some n) :
    (runSingle f cli w).stderr
      = [errLine (inputName cli) "Could not save minified code"
          w.failCause] := by
  unfold singleSrcFails at hsf
  simp only [runSingle, hq]
  cases hh : cli.inputs.head? with
  | some p =>
    rw [hh] at hsf
    simp at hsf
    obtain ⟨hof, hrf⟩ := hsf
    have hin : inputName cli = p := by simp [inputName, hh]
    rw [hin]
    rw [if_neg (by simp [hof])]
    have hv : ∃ src, fsLookup w.fs p = some src := by
      simp only [openFailsAt, Bool.or_eq_false_iff] at hof
      cases hl : fsLookup w.fs p with
      | none => rw [hl] at hof; simp at hof
      | some src => exact ⟨src, rfl⟩
    obtain ⟨src, hv⟩ := hv
    simp [hrf, hv, hcf, hwc]
  | none =>
    rw [hh] at hsf
    simp at hsf
    rw [if_neg (by simp)]
    simp [hsf, hcf, hwc]

theorem runSingle_writeFail_stdout (f : Bytes → Cfg → Bytes) (cli : Cli)
    (w : World) (n : Nat)
    (hsf : singleSrcFails cli w = false) (hq : cli.output = none)
    (hsc : w.stdoutCap = some n) :
    (runSingle f cli w).stderr
      = [errLine (inputName cli) "Could not save minified code"
          w.failCause] := by
  unfold singleSrcFails at hsf
  simp only [runSingle, hq]
  cases hh : cli.inputs.head? with
  | some p =>
    rw [hh] at hsf
    simp at hsf
    obtain ⟨hof, hrf⟩ := hsf
    have hin : inputName cli = p := by simp [inputName, hh]
    rw [hin]
    rw [if_neg (by simp [hof])]
    have hv : ∃ src, fsLookup w.fs p = some src := by
      simp only [openFailsAt, Bool.or_eq_false_iff] at hof
      cases hl : fsLookup w.fs p with
      | none => rw [hl] at hof; simp at hof
      | some src => exact ⟨src, rfl⟩
    obtain ⟨src, hv⟩ := hv
    simp [hrf, hv, hsc]
  | none =>
    rw [hh] at hsf
    simp at hsf
    rw [if_neg (by simp)]
    simp [hsf, hsc]

/-- C4: when `--output` is provided together with more than one input, the
driver fails immediately with exit code 1 before opening, reading, or
minifying any input: the result is the fixed conflict report with the file
system untouched, identically for every minifier function and every world. -/
theorem output_with_multiple_inputs_fatal_before_processing
    (f : Bytes → Cfg → Bytes) (cli : Cli) (w : World)
    (hout : cli.output.isSome = true) (hmany : 1 < cli.inputs.length) :
    run f cli w = ⟨1, [], [conflictMsg], w.fs⟩ := by
  unfold run
  rw [if_pos ⟨hout, hmany⟩]

theorem output_with_multiple_inputs_fatal_before_processing_witness :
    (Cli.mk ["a", "b"] (some "o") {}).output.isSome = true ∧
    1 < (Cli.mk ["a", "b"] (some "o") {}).inputs.length ∧
    run idMin (Cli.mk ["a", "b"] (some "o") {})
        ⟨[("a", ['x']), ("b", ['y'])], [], [], [], [], [], false, none, "e"⟩
      = ⟨1, [], [conflictMsg], [("a", ['x']), ("b", ['y'])]⟩ :=
  ⟨rfl, by decide,
    output_with_multiple_inputs_fatal_before_processing idMin _ _ rfl
      (by decide)⟩

/-- C9: in single-input or stdin mode every run exits 0 and standard error is
either empty or exactly one line `[<name>] <message>: <cause>` naming the
input; every I/O failure produces its specific error line: a source that
fails to open or read, a failing standard-input read, a failing output
create, and a failing output or standard-output write each yield exactly one
`[<name>] <message>: <cause>` line (with the file system untouched and
nothing on standard output for the failures before the write, matching the
early return); and the only nonzero exit the driver can produce at all is
the `--output`-with-multiple-inputs conflict. -/
theorem single_mode_failures_report_and_exit_zero
    (f : Bytes → Cfg → Bytes) (cli : Cli) (w : World) :
    (cli.inputs.length ≤ 1 →
      (run f cli w).exitCode = 0 ∧
      ((run f cli w).stderr = [] ∨
        ∃ msg, (run f cli w).stderr
          = [errLine (inputName cli) msg w.failCause])) ∧
    (∀ p, cli.inputs = [p] → openFailsAt w p = true →
      run f cli w = ⟨0, [],
        [errLine p "Could not open source file" w.failCause], w.fs⟩) ∧
    (∀ p, cli.inputs = [p] → openFailsAt w p = false → p ∈ w.readFails →
      run f cli w = ⟨0, [],
        [errLine p "Could not load source code" w.failCause], w.fs⟩) ∧
    (cli.inputs = [] → w.stdinReadFails = true →
      run f cli w = ⟨0, [],
        [errLine "stdin" "Could not load source code" w.failCause],
        w.fs⟩) ∧
    (∀ q, cli.inputs.length ≤ 1 → singleSrcFails cli w = false →
      cli.output = some q → q ∈ w.createFails →
      run f cli w = ⟨0, [],
        [errLine (inputName cli) "Could not open output file" w.failCause],
        w.fs⟩) ∧
    (∀ q n, cli.inputs.length ≤ 1 → singleSrcFails cli w = false →
      cli.output = some q → q ∉ w.createFails →
      w.writeCaps.lookup q = some n →
      (run f cli w).stderr
        = [errLine (inputName cli) "Could not save minified code"
            w.failCause]) ∧
    (∀ n, cli.inputs.length ≤ 1 → singleSrcFails cli w = false →
      cli.output = none → w.stdoutCap = some n →
      (run f cli w).stderr
        = [errLine (inputName cli) "Could not save minified code"
            w.failCause]) ∧
    ((run f cli w).exitCode ≠ 0 →
      cli.output.isSome = true ∧ 1 < cli.inputs.length) := by
  have hsingle : ∀ hlen : cli.inputs.length ≤ 1,
      run f cli w = runSingle f cli w := by
    intro hlen
    have hno : ¬(cli.output.isSome = true ∧ 1 < cli.inputs.length) :=
      fun h => absurd h.2 (by omega)
    unfold run
    rw [if_neg hno, if_pos hlen]
  refine ⟨?_, ?_, ?_, ?_, ?_, ?_, ?_, ?_⟩
  · intro hlen
    rw [hsingle hlen]
    exact ⟨runSingle_exitCode f cli w, runSingle_stderr f cli w⟩
  · intro p hp hof
    rw [hsingle (by rw [hp]; simp)]
    exact runSingle_openFail f cli w p hp hof
  · intro p hp hof hrf
    rw [hsingle (by rw [hp]; simp)]
    exact runSingle_readFail_named f cli w p hp hof hrf
  · intro hp hsf
    rw [hsingle (by rw [hp]; simp)]
    exact runSingle_readFail_stdin f cli w hp hsf
  · intro q hlen hsf hq hcf
    rw [hsingle hlen]
    exact runSingle_createFail f cli w q hsf hq hcf
  · intro q n hlen hsf hq hcf hwc
    rw [hsingle hlen]
    exact runSingle_writeFail_file f cli w q n hsf hq hcf hwc
  · intro n hlen hsf hq hsc
    rw [hsingle hlen]
    exact runSingle_writeFail_stdout f cli w n hsf hq hsc
  · intro hne
    by_cases hc : cli.output.isSome = true ∧ 1 < cli.inputs.length
    · exact hc
    · exfalso
      apply hne
      unfold run
      rw [if_neg hc]
      by_cases hl : cli.inputs.length ≤ 1
      · rw [if_pos hl]
        exact runSingle_exitCode f cli w
      · rw [if_neg hl]

theorem single_mode_failures_report_and_exit_zero_witness :
    (Cli.mk [] none {}).inputs = ([] : List String) ∧
    (⟨[], ['z'], [], [], [], [], true, none, "e"⟩
        : World).stdinReadFails = true ∧
    run idMin (Cli.mk [] none {})
        ⟨[], ['z'], [], [], [], [], true, none, "e"⟩
      = ⟨0, [], [errLine "stdin" "Could not load source code" "e"], []⟩ :=
  ⟨rfl, rfl,
    (single_mode_failures_report_and_exit_zero idMin (Cli.mk [] none {})
        ⟨[], ['z'], [], [], [], [], true, none, "e"⟩).2.2.2.1 rfl rfl⟩

/-- C5: in batch mode (more than one distinct input path), the run exits 0,
every input whose open/read/create/write fails contributes an error line
naming that input, and every input with no I/O failure is still fully
processed: its file ends up holding the minified version of its original
contents. -/
theorem batch_mode_failures_isolated
    (f : Bytes → Cfg → Bytes) (cli : Cli) (w : World)
    (hmany : 1 < cli.inputs.length) (hout : cli.output = none)
    (hnd : cli.inputs.Nodup) :
    (run f cli w).exitCode = 0 ∧
    (∀ p ∈ cli.inputs, fileFails w p = true →
      ∃ msg, errLine p msg w.failCause ∈ (run f cli w).stderr) ∧
    (∀ p ∈ cli.inputs, fileFails w p = false →
      ∃ src, fsLookup w.fs p = some src ∧
        fsLookup (run f cli w).fs p = some (f src cli.cfg)) := by
  have hrun : run f cli w
      = ⟨0, (processBatch f cli.cfg w w.fs cli.inputs).2.2,
          (processBatch f cli.cfg w w.fs cli.inputs).2.1,
          (processBatch f cli.cfg w w.fs cli.inputs).1⟩ := by
    unfold run
    rw [if_neg (by simp [hout]), if_neg (by omega)]
  rw [hrun]
  refine ⟨rfl, ?_, ?_⟩
  · intro p hp hf
    exact (processBatch_streams f cli.cfg w cli.inputs w.fs p hnd hp rfl).1 hf
  · intro p hp hf
    have h := processBatch_fs_mem f cli.cfg w cli.inputs w.fs p hnd hp rfl
    simp only [fileFails, Bool.or_eq_false_iff, decide_eq_false_iff_not] at hf
    obtain ⟨⟨⟨hop, hrd⟩, hcr⟩, hw⟩ := hf
    cases hw2 : w.writeCaps.lookup p with
    | some n => rw [hw2] at hw; simp at hw
    | none =>
      cases hv : fsLookup w.fs p with
      | none =>
        simp only [openFailsAt, Bool.or_eq_false_iff] at hop
        rw [hv] at hop
        simp at hop
      | some src =>
        refine ⟨src, rfl, ?_⟩
        rw [h]
        unfold fileFinal
        simp [hop, hv, hrd, hcr, hw2]

theorem batch_mode_failures_isolated_witness :
    1 < (Cli.mk ["a", "b"] none {}).inputs.length ∧
    (Cli.mk ["a", "b"] none {}).inputs.Nodup ∧
    ((run idMin (Cli.mk ["a", "b"] none {})
        ⟨[("a", ['x']), ("b", ['y'])], [], ["a"], [], [], [], false, none,
          "e"⟩).exitCode = 0 ∧
      (∀ p ∈ (Cli.mk ["a", "b"] none {}).inputs,
        fileFails ⟨[("a", ['x']), ("b", ['y'])], [], ["a"], [], [], [], false,
          none, "e"⟩ p = true →
        ∃ msg, errLine p msg "e"
          ∈ (run idMin (Cli.mk ["a", "b"] none {})
              ⟨[("a", ['x']), ("b", ['y'])], [], ["a"], [], [], [], false,
                none, "e"⟩).stderr) ∧
      (∀ p ∈ (Cli.mk ["a", "b"] none {}).inputs,
        fileFails ⟨[("a", ['x']), ("b", ['y'])], [], ["a"], [], [], [], false,
          none, "e"⟩ p = false →
        ∃ src, fsLookup [("a", ['x']), ("b", ['y'])] p = some src ∧
          fsLookup (run idMin (Cli.mk ["a", "b"] none {})
              ⟨[("a", ['x']), ("b", ['y'])], [], ["a"], [], [], [], false,
                none, "e"⟩).fs p = some (idMin src {}))) :=
  ⟨by decide, by decide,
    batch_mode_failures_isolated idMin _ _ (by decide) rfl (by decide)⟩

/-- C6: with zero positional paths the driver reads one document from
standard input and writes the minified result to standard output, leaving the
file system alone; with more than one path it minifies each (non-failing)
file in place and prints each successfully processed path, newline
terminated, somewhere on standard output. -/
theorem input_mode_selection (f : Bytes → Cfg → Bytes) (cli : Cli)
    (w : World) :
    (cli.inputs = [] → cli.output = none → w.stdinReadFails = false →
      w.stdoutCap = none →
      run f cli w = ⟨0, f w.stdinData cli.cfg, [], w.fs⟩) ∧
    (1 < cli.inputs.length → cli.output = none → cli.inputs.Nodup →
      ∀ p ∈ cli.inputs, fileFails w p = false →
        (∃ src, fsLookup w.fs p = some src ∧
          fsLookup (run f cli w).fs p = some (f src cli.cfg)) ∧
        ∃ a b, (run f cli w).stdout = a ++ (p.data ++ ['\n']) ++ b) := by
  constructor
  · intro h1 h2 h3 h4
    simp [run, runSingle, inputName, h1, h2, h3, h4]
  · intro hmany hout hnd p hp hf
    have hrun : run f cli w
        = ⟨0, (processBatch f cli.cfg w w.fs cli.inputs).2.2,
            (processBatch f cli.cfg w w.fs cli.inputs).2.1,
            (processBatch f cli.cfg w w.fs cli.inputs).1⟩ := by
      unfold run
      rw [if_neg (by simp [hout]), if_neg (by omega)]
    rw [hrun]
    constructor
    · have h := processBatch_fs_mem f cli.cfg w cli.inputs w.fs p hnd hp rfl
      simp only [fileFails, Bool.or_eq_false_iff, decide_eq_false_iff_not]
        at hf
      obtain ⟨⟨⟨hop, hrd⟩, hcr⟩, hw⟩ := hf
      cases hw2 : w.writeCaps.lookup p with
      | some n => rw [hw2] at hw; simp at hw
      | none =>
        cases hv : fsLookup w.fs p with
        | none =>
          simp only [openFailsAt, Bool.or_eq_false_iff] at hop
          rw [hv] at hop
          simp at hop
        | some src =>
          refine ⟨src, rfl, ?_⟩
          rw [h]
          unfold fileFinal
          simp [hop, hv, hrd, hcr, hw2]
    · exact (processBatch_streams f cli.cfg w cli.inputs w.fs p hnd hp rfl).2
        hf

theorem input_mode_selection_witness :
    ((Cli.mk [] none {}).inputs = [] ∧
      run idMin (Cli.mk [] none {})
          ⟨[("a", ['x'])], ['z'], [], [], [], [], false, none, "e"⟩
        = ⟨0, ['z'], [], [("a", ['x'])]⟩) :=
  ⟨rfl,
    (input_mode_selection idMin (Cli.mk [] none {})
        ⟨[("a", ['x'])], ['z'], [], [], [], [], false, none, "e"⟩).1
      rfl rfl rfl rfl⟩

/-- C10 (amended): in batch in-place mode, the source is read to the end
before the destination is truncated, so whatever happens afterwards the
minified bytes are computed from the complete original contents; the write is
not atomic: if `write_all` fails after `n` bytes the file is left holding
that `n`-byte prefix of the minified output (no restore is attempted), while
a failure of `File::create` itself leaves the original contents untouched. -/
theorem batch_in_place_write_not_atomic
    (f : Bytes → Cfg → Bytes) (cli : Cli) (w : World) (p : String)
    (hmany : 1 < cli.inputs.length) (hout : cli.output = none)
    (hnd : cli.inputs.Nodup) (hp : p ∈ cli.inputs)
    (hopen : openFailsAt w p = false) (hread : p ∉ w.readFails) :
    ∃ src, fsLookup w.fs p = some src ∧
      (p ∈ w.createFails → fsLookup (run f cli w).fs p = some src) ∧
      (p ∉ w.createFails → ∀ n, w.writeCaps.lookup p = some n →
        fsLookup (run f cli w).fs p = some ((f src cli.cfg).take n)) := by
  have hrun : run f cli w
      = ⟨0, (processBatch f cli.cfg w w.fs cli.inputs).2.2,
          (processBatch f cli.cfg w w.fs cli.inputs).2.1,
          (processBatch f cli.cfg w w.fs cli.inputs).1⟩ := by
    unfold run
    rw [if_neg (by simp [hout]), if_neg (by omega)]
  have h := processBatch_fs_mem f cli.cfg w cli.inputs w.fs p hnd hp rfl
  cases hv : fsLookup w.fs p with
  | none =>
    simp only [openFailsAt, Bool.or_eq_false_iff] at hopen
    rw [hv] at hopen
    simp at hopen
  | some src =>
    refine ⟨src, rfl, ?_, ?_⟩
    · intro hcr
      rw [hrun]
      simp only []
      rw [h]
      unfold fileFinal
      simp [hopen, hv, hread, hcr]
    · intro hcr n hn
      rw [hrun]
      simp only []
      rw [h]
      unfold fileFinal
      simp [hopen, hv, hread, hcr, hn]



theorem batch_in_place_write_not_atomic_witness :
    (1 < c10Cli.inputs.length ∧ c10Cli.output = none ∧ c10Cli.inputs.Nodup ∧
      "a" ∈ c10Cli.inputs ∧ openFailsAt c10World "a" = false ∧
      "a" ∉ c10World.readFails) ∧
    ∃ src, fsLookup c10World.fs "a" = some src ∧
      ("a" ∈ c10World.createFails →
        fsLookup (run idMin c10Cli c10World).fs "a" = some src) ∧
      ("a" ∉ c10World.createFails → ∀ n,
        c10World.writeCaps.lookup "a" = some n →
        fsLookup (run idMin c10Cli c10World).fs "a"
          = some ((idMin src c10Cli.cfg).take n)) :=
  ⟨⟨by decide, rfl, by decide, by decide, by decide, by decide⟩,
    batch_in_place_write_not_atomic idMin c10Cli c10World "a" (by decide) rfl
      (by decide) (by decide) (by decide) (by decide)⟩

/-- C10, the claim as stated, refuted at a concrete input: in a batch run
where reading `"a"` succeeded and `File::create` on `"a"` then fails, the
claim asserts the file is left truncated or partially written (in particular
not holding its original contents), but the driver leaves the original
contents `['x']` untouched. -/
theorem batch_create_failure_leaves_original_counterexample :
    1 < (Cli.mk ["a", "b"] none {}).inputs.length ∧
    openFailsAt ⟨[("a", ['x']), ("b", ['y'])], [], [], [], ["a"], [], false,
      none, "e"⟩ "a" = false ∧
    "a" ∉ (⟨[("a", ['x']), ("b", ['y'])], [], [], [], ["a"], [], false, none,
      "e"⟩ : World).readFails ∧
    "a" ∈ (⟨[("a", ['x']), ("b", ['y'])], [], [], [], ["a"], [], false, none,
      "e"⟩ : World).createFails ∧
    fsLookup (run idMin (Cli.mk ["a", "b"] none {})
        ⟨[("a", ['x']), ("b", ['y'])], [], [], [], ["a"], [], false, none,
          "e"⟩).fs "a" = some ['x'] ∧
    fsLookup (⟨[("a", ['x']), ("b", ['y'])], [], [], [], ["a"], [], false,
      none, "e"⟩ : World).fs "a" = some ['x'] := by
  decide

/-- C8: under the default configuration, `"<p>a   b</p>"` minifies to
`"<p>a b</p>"` (the whitespace run between inline text collapses to exactly
one space) and `"<div>  <p>x</p>  </div>"` minifies to
`"<div><p>x</p></div>"` (whitespace at a block-element boundary collapses to
zero bytes); the formatting/inline decision is made by the static
`FORMATTING_TAGS` table, which excludes `p` and `div` (while containing, for
instance, `b` and `span`). -/
theorem whitespace_collapse_examples :
    minify "<p>a   b</p>".data Cfg.default = "<p>a b</p>".data ∧
    minify "<div>  <p>x</p>  </div>".data Cfg.default
      = "<div><p>x</p></div>".data ∧
    isFormattingTag "p".data = false ∧
    isFormattingTag "div".data = false ∧
    isFormattingTag "b".data = true ∧
    isFormattingTag "span".data = true :=
  ⟨rfl, rfl, rfl, rfl, rfl, rfl⟩

theorem insertAttr_any_key (r : List (Bytes × Bytes)) (k v k0 : Bytes) :
    ((insertAttr r k v).any fun kv => kv.1 == k0)
      = ((r.any fun kv => kv.1 == k0) || k == k0) := by
  induction r with
  | nil => simp [insertAttr]
  | cons hd t ih =>
    obtain ⟨k1, v1⟩ := hd
    by_cases h : (k1 == k) = true
    · have hk : k1 = k := by simpa using h
      subst hk
      simp only [insertAttr, h, if_true, List.any_cons]
      cases h0 : (k1 == k0) <;> simp [h0]
    · simp only [insertAttr, h, Bool.false_eq_true, if_false, List.any_cons,
        ih]
      cases h0 : (k1 == k0) <;> simp [h0]

theorem keysDistinct_insertAttr (r : List (Bytes × Bytes)) (k v : Bytes)
    (h : keysDistinct r = true) : keysDistinct (insertAttr r k v) = true := by
  induction r with
  | nil => simp [insertAttr, keysDistinct]
  | cons hd t ih =>
    obtain ⟨k1, v1⟩ := hd
    simp only [keysDistinct, Bool.and_eq_true, Bool.not_eq_true'] at h
    by_cases hb : (k1 == k) = true
    · simp only [insertAttr, hb, if_true]
      simp only [keysDistinct, Bool.and_eq_true, Bool.not_eq_true']
      exact h
    · simp only [insertAttr, hb, Bool.false_eq_true, if_false]
      simp only [keysDistinct, Bool.and_eq_true, Bool.not_eq_true',
        insertAttr_any_key]
      refine ⟨?_, ih h.2⟩
      have hkk : (k == k1) = false := by
        cases hkk : (k == k1)
        · rfl
        · exact absurd (by simpa using hkk : k = k1)
            (fun he => hb (by simp [he]))
      simp [h.1, hkk]

theorem parseAttrs_keysDistinct : ∀ (fuel : Nat)
    (acc : List (Bytes × Bytes)) (s : Bytes) (attrs : List (Bytes × Bytes))
    (sc : Bool) (rest : Bytes),
    parseAttrs fuel acc s = .done attrs sc rest → keysDistinct acc = true →
    keysDistinct attrs = true := by
  intro fuel
  induction fuel with
  | zero =>
    intro acc s attrs sc rest h _
    simp [parseAttrs] at h
  | succ fuel ih =>
    intro acc s attrs sc rest h hacc
    unfold parseAttrs at h
    split at h
    · simp at h
    · simp only [AttrsResult.done.injEq] at h
      obtain ⟨h1, _, _⟩ := h
      exact h1 ▸ hacc
    · split at h
      · simp only [AttrsResult.done.injEq] at h
        obtain ⟨h1, _, _⟩ := h
        exact h1 ▸ hacc
      · exact ih _ _ _ _ _ h hacc
    · exact ih _ _ _ _ _ h hacc
    · simp only [] at h
      split at h
      · split at h
        · simp at h
        · split at h
          · split at h
            · exact ih _ _ _ _ _ h (keysDistinct_insertAttr _ _ _ hacc)
            · simp at h
          · split at h
            · split at h
              · exact ih _ _ _ _ _ h (keysDistinct_insertAttr _ _ _ hacc)
              · simp at h
            · exact ih _ _ _ _ _ h (keysDistinct_insertAttr _ _ _ hacc)
      · exact ih _ _ _ _ _ h (keysDistinct_insertAttr _ _ _ hacc)

theorem parseElem_elim (cfg : Cfg)
    (go : Namespace → List Bytes → Bytes → Document × Bytes)
    (ns : Namespace) (stack : List Bytes) (tname : Bytes)
    (attrs : List (Bytes × Bytes)) (sc : Bool) (rest2 : Bytes)
    (ens : Namespace) (motive : Document × Bytes → Prop)
    (hvoid : (ens == Namespace.html && inTable tname VOID_TAGS) = true →
      motive (.element attrs [] .void tname ens :: (go ns stack rest2).1,
        (go ns stack rest2).2))
    (hsc : (ens == Namespace.html && inTable tname VOID_TAGS) = false →
      (sc && !(ens == Namespace.html)) = true →
      motive (.element attrs [] .selfClosing tname ens
          :: (go ns stack rest2).1, (go ns stack rest2).2))
    (hrawC : ∀ content r,
      (ens == Namespace.html && inTable tname VOID_TAGS) = false →
      (sc && !(ens == Namespace.html)) = false →
      (ens == Namespace.html
        && (tagIs tname "script" || tagIs tname "style")) = true →
      scanRaw tname (rest2.length + 1) rest2 = (content, some r) →
      motive (.element attrs
          [.scriptOrStyleContent content
            (if tagIs tname "style" then .css else scriptLang attrs)]
          .present tname ens :: (go ns stack r).1, (go ns stack r).2))
    (hrawE : ∀ content,
      (ens == Namespace.html && inTable tname VOID_TAGS) = false →
      (sc && !(ens == Namespace.html)) = false →
      (ens == Namespace.html
        && (tagIs tname "script" || tagIs tname "style")) = true →
      scanRaw tname (rest2.length + 1) rest2 = (content, none) →
      motive ([.element attrs
          [.scriptOrStyleContent content
            (if tagIs tname "style" then .css else scriptLang attrs)]
          .omitted tname ens], []))
    (hcloseC : ∀ r4,
      (ens == Namespace.html && inTable tname VOID_TAGS) = false →
      (sc && !(ens == Namespace.html)) = false →
      (ens == Namespace.html
        && (tagIs tname "script" || tagIs tname "style")) = false →
      matchCloseTag tname
        (go (childNamespace ens tname) (tname :: stack) rest2).2 = some r4 →
      motive (.element attrs
          (go (childNamespace ens tname) (tname :: stack) rest2).1
          .present tname ens :: (go ns stack r4).1, (go ns stack r4).2))
    (hcloseN :
      (ens == Namespace.html && inTable tname VOID_TAGS) = false →
      (sc && !(ens == Namespace.html)) = false →
      (ens == Namespace.html
        && (tagIs tname "script" || tagIs tname "style")) = false →
      matchCloseTag tname
        (go (childNamespace ens tname) (tname :: stack) rest2).2 = none →
      motive (.element attrs
          (go (childNamespace ens tname) (tname :: stack) rest2).1
          .omitted tname ens
          :: (go ns stack
              (go (childNamespace ens tname) (tname :: stack) rest2).2).1,
        (go ns stack
          (go (childNamespace ens tname) (tname :: stack) rest2).2).2)) :
    motive (parseElem cfg go ns stack tname attrs sc rest2 ens) := by
  unfold parseElem
  cases h1 : (ens == Namespace.html && inTable tname VOID_TAGS) with
  | true => exact hvoid h1
  | false =>
    cases h2 : (sc && !(ens == Namespace.html)) with
    | true => exact hsc h1 h2
    | false =>
      cases h3 : (ens == Namespace.html
          && (tagIs tname "script" || tagIs tname "style")) with
      | true =>
        rcases hq : scanRaw tname (rest2.length + 1) rest2 with ⟨content, o⟩
        cases o with
        | some r => exact hrawC content r h1 h2 h3 hq
        | none => exact hrawE content h1 h2 h3 hq
      | false =>
        cases hm : matchCloseTag tname
            (go (childNamespace ens tname) (tname :: stack) rest2).2 with
        | some r4 => exact hcloseC r4 h1 h2 h3 hm
        | none => exact hcloseN h1 h2 h3 hm

theorem parseOpenTag_elim (cfg : Cfg)
    (go : Namespace → List Bytes → Bytes → Document × Bytes)
    (ns : Namespace) (stack : List Bytes) (c : Char) (rest : Bytes)
    (tname afterName : Bytes) (motive : Document × Bytes → Prop)
    (hunterminated :
      parseAttrs (afterName.length + 1) [] afterName = .unterminated →
      motive ([.text (c :: rest)], []))
    (hdone : ∀ attrs sc rest2,
      parseAttrs (afterName.length + 1) [] afterName = .done attrs sc rest2 →
      motive (parseElem cfg go ns stack tname attrs sc rest2
        (elemNamespace ns tname))) :
    motive (parseOpenTag cfg go ns stack c rest tname afterName) := by
  unfold parseOpenTag
  cases hpa : parseAttrs (afterName.length + 1) [] afterName with
  | unterminated => exact hunterminated hpa
  | done attrs sc rest2 => exact hdone attrs sc rest2 hpa

theorem parseNodesStep_elim (cfg : Cfg)
    (go : Namespace → List Bytes → Bytes → Document × Bytes)
    (ns : Namespace) (stack : List Bytes) (s : Bytes)
    (motive : Document × Bytes → Prop)
    (hnil : s = [] → motive ([], []))
    (hcommentC : ∀ c rest code after, s = c :: rest → (c == '<') = true →
      startsWith rest ['!', '-', '-'] = true →
      splitAtPat ['-', '-', '>'] (rest.drop 3) = some (code, after) →
      motive (.comment code true :: (go ns stack after).1,
        (go ns stack after).2))
    (hcommentE : ∀ c rest, s = c :: rest → (c == '<') = true →
      startsWith rest ['!', '-', '-'] = true →
      splitAtPat ['-', '-', '>'] (rest.drop 3) = none →
      motive ([.comment (rest.drop 3) false], []))
    (hbangC : ∀ c rest hd r, s = c :: rest → (c == '<') = true →
      startsWith rest ['!', '-', '-'] = false →
      startsWith rest ['!'] = true →
      (rest.drop 1).drop
        ((rest.drop 1).takeWhile fun d => !(d == '>')).length = hd :: r →
      motive (.bang ((rest.drop 1).takeWhile fun d => !(d == '>')) true
          :: (go ns stack r).1, (go ns stack r).2))
    (hbangE : ∀ c rest, s = c :: rest → (c == '<') = true →
      startsWith rest ['!', '-', '-'] = false →
      startsWith rest ['!'] = true →
      (rest.drop 1).drop
        ((rest.drop 1).takeWhile fun d => !(d == '>')).length = [] →
      motive ([.bang ((rest.drop 1).takeWhile fun d => !(d == '>')) false],
        []))
    (hinstrC : ∀ c rest code after, s = c :: rest → (c == '<') = true →
      startsWith rest ['!', '-', '-'] = false →
      startsWith rest ['!'] = false → startsWith rest ['?'] = true →
      splitAtPat ['?', '>'] (rest.drop 1) = some (code, after) →
      motive (.instruction code true :: (go ns stack after).1,
        (go ns stack after).2))
    (hinstrE : ∀ c rest, s = c :: rest → (c == '<') = true →
      startsWith rest ['!', '-', '-'] = false →
      startsWith rest ['!'] = false → startsWith rest ['?'] = true →
      splitAtPat ['?', '>'] (rest.drop 1) = none →
      motive ([.instruction (rest.drop 1) false], []))
    (hchevC : ∀ c rest inner after, s = c :: rest → (c == '<') = true →
      startsWith rest ['!', '-', '-'] = false →
      startsWith rest ['!'] = false → startsWith rest ['?'] = false →
      (cfg.preserve_chevron_percent_template_syntax
        && startsWith rest ['%']) = true →
      splitAtPat ['%', '>'] (rest.drop 1) = some (inner, after) →
      motive (.text ('<' :: '%' :: (inner ++ ['%', '>']))
          :: (go ns stack after).1, (go ns stack after).2))
    (hchevE : ∀ c rest, s = c :: rest → (c == '<') = true →
      startsWith rest ['!', '-', '-'] = false →
      startsWith rest ['!'] = false → startsWith rest ['?'] = false →
      (cfg.preserve_chevron_percent_template_syntax
        && startsWith rest ['%']) = true →
      splitAtPat ['%', '>'] (rest.drop 1) = none →
      motive ([.text (c :: rest)], []))
    (hcloseIn : ∀ c rest hd r3, s = c :: rest → (c == '<') = true →
      startsWith rest ['!', '-', '-'] = false →
      startsWith rest ['!'] = false → startsWith rest ['?'] = false →
      (cfg.preserve_chevron_percent_template_syntax
        && startsWith rest ['%']) = false →
      startsWith rest ['/'] = true →
      ((rest.drop 1).drop
        ((rest.drop 1).takeWhile fun d =>
          !(isWs d || d == '>')).length).dropWhile
        (fun d => !(d == '>')) = hd :: r3 →
      stack.contains
        ((rest.drop 1).takeWhile fun d => !(isWs d || d == '>')) = true →
      motive ([], c :: rest))
    (hcloseOut : ∀ c rest hd r3, s = c :: rest → (c == '<') = true →
      startsWith rest ['!', '-', '-'] = false →
      startsWith rest ['!'] = false → startsWith rest ['?'] = false →
      (cfg.preserve_chevron_percent_template_syntax
        && startsWith rest ['%']) = false →
      startsWith rest ['/'] = true →
      ((rest.drop 1).drop
        ((rest.drop 1).takeWhile fun d =>
          !(isWs d || d == '>')).length).dropWhile
        (fun d => !(d == '>')) = hd :: r3 →
      stack.contains
        ((rest.drop 1).takeWhile fun d => !(isWs d || d == '>')) = false →
      motive (go ns stack r3))
    (hcloseE : ∀ c rest, s = c :: rest → (c == '<') = true →
      startsWith rest ['!', '-', '-'] = false →
      startsWith rest ['!'] = false → startsWith rest ['?'] = false →
      (cfg.preserve_chevron_percent_template_syntax
        && startsWith rest ['%']) = false →
      startsWith rest ['/'] = true →
      ((rest.drop 1).drop
        ((rest.drop 1).takeWhile fun d =>
          !(isWs d || d == '>')).length).dropWhile
        (fun d => !(d == '>')) = [] →
      motive ([], []))
    (hltEof : ∀ c, s = [c] → (c == '<') = true →
      motive ([.text ['<']], []))
    (hopen : ∀ c d rest2, s = c :: d :: rest2 → (c == '<') = true →
      startsWith (d :: rest2) ['!', '-', '-'] = false →
      startsWith (d :: rest2) ['!'] = false →
      startsWith (d :: rest2) ['?'] = false →
      (cfg.preserve_chevron_percent_template_syntax
        && startsWith (d :: rest2) ['%']) = false →
      startsWith (d :: rest2) ['/'] = false →
      isAlphaChar d = true →
      motive (parseOpenTag cfg go ns stack c (d :: rest2)
        ((d :: rest2).takeWhile fun e => !(isWs e || e == '/' || e == '>'))
        ((d :: rest2).drop
          ((d :: rest2).takeWhile fun e =>
            !(isWs e || e == '/' || e == '>')).length)))
    (hltText : ∀ c d rest2, s = c :: d :: rest2 → (c == '<') = true →
      startsWith (d :: rest2) ['!', '-', '-'] = false →
      startsWith (d :: rest2) ['!'] = false →
      startsWith (d :: rest2) ['?'] = false →
      (cfg.preserve_chevron_percent_template_syntax
        && startsWith (d :: rest2) ['%']) = false →
      startsWith (d :: rest2) ['/'] = false →
      isAlphaChar d = false →
      motive (.text ['<'] :: (go ns stack (d :: rest2)).1,
        (go ns stack (d :: rest2)).2))
    (hbr2C : ∀ c rest inner after, s = c :: rest → (c == '<') = false →
      (cfg.preserve_brace_template_syntax
        && startsWith (c :: rest) [lbrace, lbrace]) = true →
      splitAtPat [rbrace, rbrace] ((c :: rest).drop 2) = some (inner, after) →
      motive (.text ([lbrace, lbrace] ++ inner ++ [rbrace, rbrace])
          :: (go ns stack after).1, (go ns stack after).2))
    (hbr2E : ∀ c rest, s = c :: rest → (c == '<') = false →
      (cfg.preserve_brace_template_syntax
        && startsWith (c :: rest) [lbrace, lbrace]) = true →
      splitAtPat [rbrace, rbrace] ((c :: rest).drop 2) = none →
      motive ([.text (c :: rest)], []))
    (hbrHC : ∀ c rest inner after, s = c :: rest → (c == '<') = false →
      (cfg.preserve_brace_template_syntax
        && startsWith (c :: rest) [lbrace, lbrace]) = false →
      (cfg.preserve_brace_template_syntax
        && startsWith (c :: rest) [lbrace, '#']) = true →
      splitAtPat ['#', rbrace] ((c :: rest).drop 2) = some (inner, after) →
      motive (.text ([lbrace, '#'] ++ inner ++ ['#', rbrace])
          :: (go ns stack after).1, (go ns stack after).2))
    (hbrHE : ∀ c rest, s = c :: rest → (c == '<') = false →
      (cfg.preserve_brace_template_syntax
        && startsWith (c :: rest) [lbrace, lbrace]) = false →
      (cfg.preserve_brace_template_syntax
        && startsWith (c :: rest) [lbrace, '#']) = true →
      splitAtPat ['#', rbrace] ((c :: rest).drop 2) = none →
      motive ([.text (c :: rest)], []))
    (hbrPC : ∀ c rest inner after, s = c :: rest → (c == '<') = false →
      (cfg.preserve_brace_template_syntax
        && startsWith (c :: rest) [lbrace, lbrace]) = false →
      (cfg.preserve_brace_template_syntax
        && startsWith (c :: rest) [lbrace, '#']) = false →
      (cfg.preserve_brace_template_syntax
        && startsWith (c :: rest) [lbrace, '%']) = true →
      splitAtPat ['%', rbrace] ((c :: rest).drop 2) = some (inner, after) →
      motive (.text ([lbrace, '%'] ++ inner ++ ['%', rbrace])
          :: (go ns stack after).1, (go ns stack after).2))
    (hbrPE : ∀ c rest, s = c :: rest → (c == '<') = false →
      (cfg.preserve_brace_template_syntax
        && startsWith (c :: rest) [lbrace, lbrace]) = false →
      (cfg.preserve_brace_template_syntax
        && startsWith (c :: rest) [lbrace, '#']) = false →
      (cfg.preserve_brace_template_syntax
        && startsWith (c :: rest) [lbrace, '%']) = true →
      splitAtPat ['%', rbrace] ((c :: rest).drop 2) = none →
      motive ([.text (c :: rest)], []))
    (hplain : ∀ c rest, s = c :: rest → (c == '<') = false →
      (cfg.preserve_brace_template_syntax
        && startsWith (c :: rest) [lbrace, lbrace]) = false →
      (cfg.preserve_brace_template_syntax
        && startsWith (c :: rest) [lbrace, '#']) = false →
      (cfg.preserve_brace_template_syntax
        && startsWith (c :: rest) [lbrace, '%']) = false →
      motive (.text [c] :: (go ns stack rest).1, (go ns stack rest).2)) :
    motive (parseNodesStep cfg go ns stack s) := by
  cases s with
  | nil => exact hnil rfl
  | cons c rest =>
    rw [parseNodesStep.eq_def]
    dsimp only
    cases hc : (c == '<') with
    | true =>
      cases h1 : startsWith rest ['!', '-', '-'] with
      | true =>
        cases hsp : splitAtPat ['-', '-', '>'] (rest.drop 3) with
        | some ab =>
          obtain ⟨code, after⟩ := ab
          exact hcommentC c rest code after rfl hc h1 hsp
        | none => exact hcommentE c rest rfl hc h1 hsp
      | false =>
        cases h2 : startsWith rest ['!'] with
        | true =>
          cases hbd : (rest.drop 1).drop
              ((rest.drop 1).takeWhile fun d => !(d == '>')).length with
          | cons hd r => exact hbangC c rest hd r rfl hc h1 h2 hbd
          | nil => exact hbangE c rest rfl hc h1 h2 hbd
        | false =>
          cases h3 : startsWith rest ['?'] with
          | true =>
            cases hsp : splitAtPat ['?', '>'] (rest.drop 1) with
            | some ab =>
              obtain ⟨code, after⟩ := ab
              exact hinstrC c rest code after rfl hc h1 h2 h3 hsp
            | none => exact hinstrE c rest rfl hc h1 h2 h3 hsp
          | false =>
            cases h4 : (cfg.preserve_chevron_percent_template_syntax
                && startsWith rest ['%']) with
            | true =>
              cases hsp : splitAtPat ['%', '>'] (rest.drop 1) with
              | some ab =>
                obtain ⟨inner, after⟩ := ab
                exact hchevC c rest inner after rfl hc h1 h2 h3 h4 hsp
              | none => exact hchevE c rest rfl hc h1 h2 h3 h4 hsp
            | false =>
              cases h5 : startsWith rest ['/'] with
              | true =>
                cases hcd : ((rest.drop 1).drop
                    ((rest.drop 1).takeWhile fun d =>
                      !(isWs d || d == '>')).length).dropWhile
                    (fun d => !(d == '>')) with
                | cons hd r3 =>
                  cases hct : stack.contains
                      ((rest.drop 1).takeWhile fun d =>
                        !(isWs d || d == '>')) with
                  | true =>
                    exact hcloseIn c rest hd r3 rfl hc h1 h2 h3 h4 h5 hcd hct
                  | false =>
                    exact hcloseOut c rest hd r3 rfl hc h1 h2 h3 h4 h5 hcd hct
                | nil => exact hcloseE c rest rfl hc h1 h2 h3 h4 h5 hcd
              | false =>
                cases rest with
                | nil => exact hltEof c rfl hc
                | cons d rest2 =>
                  cases hal : isAlphaChar d with
                  | true =>
                    simpa [hal] using hopen c d rest2 rfl hc h1 h2 h3 h4 h5 hal
                  | false =>
                    simpa [hal] using hltText c d rest2 rfl hc h1 h2 h3 h4 h5 hal
    | false =>
      cases hb1 : (cfg.preserve_brace_template_syntax
          && startsWith (c :: rest) [lbrace, lbrace]) with
      | true =>
        cases hsp : splitAtPat [rbrace, rbrace] ((c :: rest).drop 2) with
        | some ab =>
          obtain ⟨inner, after⟩ := ab
          exact hbr2C c rest inner after rfl hc hb1 hsp
        | none => exact hbr2E c rest rfl hc hb1 hsp
      | false =>
        cases hb2 : (cfg.preserve_brace_template_syntax
            && startsWith (c :: rest) [lbrace, '#']) with
        | true =>
          cases hsp : splitAtPat ['#', rbrace] ((c :: rest).drop 2) with
          | some ab =>
            obtain ⟨inner, after⟩ := ab
            exact hbrHC c rest inner after rfl hc hb1 hb2 hsp
          | none => exact hbrHE c rest rfl hc hb1 hb2 hsp
        | false =>
          cases hb3 : (cfg.preserve_brace_template_syntax
              && startsWith (c :: rest) [lbrace, '%']) with
          | true =>
            cases hsp : splitAtPat ['%', rbrace] ((c :: rest).drop 2) with
            | some ab =>
              obtain ⟨inner, after⟩ := ab
              exact hbrPC c rest inner after rfl hc hb1 hb2 hb3 hsp
            | none => exact hbrPE c rest rfl hc hb1 hb2 hb3 hsp
          | false => exact hplain c rest rfl hc hb1 hb2 hb3

theorem parseNodes_attrsOk (cfg : Cfg) : ∀ (fuel : Nat) (ns : Namespace)
    (stack : List Bytes) (s : Bytes),
    attrsOkList (parseNodes cfg fuel ns stack s).1 = true := by
  intro fuel
  induction fuel with
  | zero => intro ns stack s; simp [parseNodes, attrsOkList]
  | succ fuel ih =>
    intro ns stack s
    rw [parseNodes]
    apply parseNodesStep_elim cfg (parseNodes cfg fuel) ns stack s
      (fun r => attrsOkList r.1 = true)
    case hnil => intros; simp [attrsOkList]
    case hcommentC => intros; simp [attrsOkList, attrsOkNode, ih]
    case hcommentE => intros; simp [attrsOkList, attrsOkNode]
    case hbangC => intros; simp [attrsOkList, attrsOkNode, ih]
    case hbangE => intros; simp [attrsOkList, attrsOkNode]
    case hinstrC => intros; simp [attrsOkList, attrsOkNode, ih]
    case hinstrE => intros; simp [attrsOkList, attrsOkNode]
    case hchevC => intros; simp [attrsOkList, attrsOkNode, ih]
    case hchevE => intros; simp [attrsOkList, attrsOkNode]
    case hcloseIn => intros; simp [attrsOkList]
    case hcloseOut => intros; exact ih _ _ _
    case hcloseE => intros; simp [attrsOkList]
    case hltEof => intros; simp [attrsOkList, attrsOkNode]
    case hltText => intros; simp [attrsOkList, attrsOkNode, ih]
    case hbr2C => intros; simp [attrsOkList, attrsOkNode, ih]
    case hbr2E => intros; simp [attrsOkList, attrsOkNode]
    case hbrHC => intros; simp [attrsOkList, attrsOkNode, ih]
    case hbrHE => intros; simp [attrsOkList, attrsOkNode]
    case hbrPC => intros; simp [attrsOkList, attrsOkNode, ih]
    case hbrPE => intros; simp [attrsOkList, attrsOkNode]
    case hplain => intros; simp [attrsOkList, attrsOkNode, ih]
    case hopen =>
      intro c d rest2 _ _ _ _ _ _ _ _
      apply parseOpenTag_elim cfg (parseNodes cfg fuel) ns stack c
        (d :: rest2) _ _ (fun r => attrsOkList r.1 = true)
      · intro _
        simp [attrsOkList, attrsOkNode]
      · intro attrs sc rest2' hpa
        have hkd : keysDistinct attrs = true :=
          parseAttrs_keysDistinct _ _ _ _ _ _ hpa rfl
        apply parseElem_elim cfg (parseNodes cfg fuel) ns stack _ attrs sc
          rest2' _ (fun r => attrsOkList r.1 = true)
        all_goals intros
        all_goals simp [attrsOkList, attrsOkNode, ih, hkd]

theorem attrsLookup_insertAttr (attrs : List (Bytes × Bytes)) (k v : Bytes) :
    attrsLookup (insertAttr attrs k v) k = some v := by
  induction attrs with
  | nil => simp [insertAttr, attrsLookup]
  | cons hd t ih =>
    obtain ⟨k1, v1⟩ := hd
    by_cases hb : (k1 == k) = true
    · simp [insertAttr, hb, attrsLookup]
    · simp [insertAttr, hb, attrsLookup, ih]

/-- C7: every parsed Element carries an attribute map without duplicate
names (invariant of the whole parse, via the insertion discipline), the
parser's insertion makes the last written value the stored one, and on a
source that repeats an attribute name the last occurrence in source order
determines the stored value. -/
theorem attribute_maps_no_duplicates_last_wins :
    (∀ (src : Bytes) (cfg : Cfg), attrsOkList (parse src cfg) = true) ∧
    (∀ (attrs : List (Bytes × Bytes)) (k v : Bytes),
      attrsLookup (insertAttr attrs k v) k = some v) ∧
    parse "<p a=1 a=2>x</p>".data Cfg.default
      = [.element [("a".data, "2".data)] [.text ['x']] .present "p".data
          .html] :=
  ⟨fun _ cfg => parseNodes_attrsOk cfg _ _ _ _,
   attrsLookup_insertAttr, rfl⟩

/-- C1: `parse` is a total function (it is defined for every byte sequence
and configuration by construction), and truncated input degrades to
best-effort capture: a comment, bang or instruction whose terminator never
occurs before end of input is captured verbatim with `ended = false`, with
no terminator synthesized. -/
theorem parse_total_truncated_best_effort (cfg : Cfg) (s : Bytes) :
    (splitAtPat ['-', '-', '>'] s = none →
      parse ('<' :: '!' :: '-' :: '-' :: s) cfg = [.comment s false]) ∧
    (startsWith s ['-', '-'] = false →
      (s.takeWhile fun d => !(d == '>')) = s →
      parse ('<' :: '!' :: s) cfg = [.bang s false]) ∧
    (splitAtPat ['?', '>'] s = none →
      parse ('<' :: '?' :: s) cfg = [.instruction s false]) := by
  refine ⟨?_, ?_, ?_⟩
  · intro h
    show (parseNodesStep cfg (parseNodes cfg _) .html []
        ('<' :: '!' :: '-' :: '-' :: s)).1 = _
    rw [parseNodesStep.eq_def]
    simp [startsWith, h]
  · intro h1 h2
    show (parseNodesStep cfg (parseNodes cfg _) .html []
        ('<' :: '!' :: s)).1 = _
    rw [parseNodesStep.eq_def]
    simp [startsWith, h1, h2]
  · intro h
    show (parseNodesStep cfg (parseNodes cfg _) .html []
        ('<' :: '?' :: s)).1 = _
    rw [parseNodesStep.eq_def]
    simp [startsWith, h]

theorem parse_total_truncated_best_effort_witness :
    splitAtPat ['-', '-', '>'] " never closed".data = none ∧
    parse ('<' :: '!' :: '-' :: '-' :: " never closed".data) Cfg.default
      = [.comment " never closed".data false] :=
  ⟨by decide,
    (parse_total_truncated_best_effort Cfg.default " never closed".data).1
      (by decide)⟩

theorem lowerBytes_length (s : Bytes) : (lowerBytes s).length = s.length := by
  simp [lowerBytes]

theorem startsWith_length : ∀ (s pat : Bytes), startsWith s pat = true →
    pat.length ≤ s.length
  | _, [], _ => by simp
  | [], _ :: _, h => by simp [startsWith] at h
  | _ :: s, _ :: ps, h => by
    simp only [startsWith, Bool.and_eq_true] at h
    simpa using Nat.succ_le_succ (startsWith_length s ps h.2)

theorem splitAtPat_length : ∀ (pat s a b : Bytes),
    splitAtPat pat s = some (a, b) →
    a.length + pat.length + b.length = s.length
  | pat, [], a, b, h => by
    simp only [splitAtPat] at h
    by_cases hp : pat.isEmpty
    · rw [if_pos hp] at h
      obtain ⟨h1, h2⟩ := Prod.mk.injEq .. ▸ Option.some.injEq .. ▸ h
      simp only [Option.some.injEq, Prod.mk.injEq] at h
      obtain ⟨ha, hb⟩ := h
      subst ha; subst hb
      simpa using List.isEmpty_iff.mp hp
    · rw [if_neg hp] at h
      exact absurd h (by simp)
  | pat, c :: rest, a, b, h => by
    simp only [splitAtPat] at h
    by_cases hs : startsWith (c :: rest) pat = true
    · rw [if_pos hs] at h
      simp only [Option.some.injEq, Prod.mk.injEq] at h
      obtain ⟨ha, hb⟩ := h
      subst ha; subst hb
      have hle := startsWith_length _ _ hs
      simp only [List.length_drop, List.length_nil]
      omega
    · rw [if_neg hs] at h
      cases hsp : splitAtPat pat rest with
      | some ab =>
        obtain ⟨a2, b2⟩ := ab
        rw [hsp] at h
        simp only [Option.some.injEq, Prod.mk.injEq] at h
        obtain ⟨ha, hb⟩ := h
        subst ha; subst hb
        have := splitAtPat_length pat rest a2 b2 hsp
        simp only [List.length_cons]
        omega
      | none => rw [hsp] at h; exact absurd h (by simp)

theorem dropWhile_head_false : ∀ (p : Char → Bool) (l : Bytes) (c : Char)
    (r : Bytes), l.dropWhile p = c :: r → p c = false
  | p, [], c, r, h => by simp [List.dropWhile] at h
  | p, d :: t, c, r, h => by
    by_cases hp : p d
    · rw [List.dropWhile_cons_of_pos hp] at h
      exact dropWhile_head_false p t c r h
    · rw [List.dropWhile_cons_of_neg hp] at h
      injection h with h1 _
      subst h1
      simpa using hp

theorem drop_takeWhile_eq_dropWhile (p : Char → Bool) :
    ∀ l : Bytes, l.drop (l.takeWhile p).length = l.dropWhile p
  | [] => by simp
  | c :: t => by
    by_cases hp : p c
    · rw [List.takeWhile_cons_of_pos hp, List.dropWhile_cons_of_pos hp]
      simpa using drop_takeWhile_eq_dropWhile p t
    · rw [List.takeWhile_cons_of_neg hp, List.dropWhile_cons_of_neg hp]
      simp

theorem collapseWs_length_le : ∀ v : Bytes,
    (collapseWs v).length ≤ v.length
  | [] => by simp [collapseWs]
  | [c] => by by_cases h : isWs c <;> simp [collapseWs, h]
  | c :: d :: rest => by
    have ih := collapseWs_length_le (d :: rest)
    by_cases h : isWs c
    · by_cases h2 : isWs d
      · simp only [collapseWs, h, h2, if_true]
        exact le_trans ih (by simp)
      · simp only [collapseWs, h, h2, if_true, if_false, List.length_cons]
        exact Nat.succ_le_succ ih
    · simp only [collapseWs, h, if_false, List.length_cons]
      exact Nat.succ_le_succ ih

theorem trimRight_length_le (v : Bytes) : (trimRight v).length ≤ v.length := by
  unfold trimRight
  calc (v.reverse.dropWhile isWs).reverse.length
      = (v.reverse.dropWhile isWs).length := by simp
    _ ≤ v.reverse.length := (List.dropWhile_sublist _).length_le
    _ = v.length := by simp

theorem segmentize_segLen_le (cfg : Cfg) : ∀ (fuel : Nat) (v : Bytes),
    segLen (segmentize cfg fuel v) ≤ v.length := by
  intro fuel
  induction fuel with
  | zero =>
    intro v
    cases v with
    | nil => simp [segmentize, segLen]
    | cons c r => simp [segmentize, segLen]
  | succ fuel ih =>
    intro v
    cases v with
    | nil => simp [segmentize, segLen]
    | cons c rest =>
      rw [segmentize.eq_def]
      dsimp only
      split
      · split
        · rename_i hc hopt inner after heq
          rw [Bool.and_eq_true] at hc
          have hsw := hc.2
          cases rest with
          | nil => simp [startsWith] at hsw
          | cons d t =>
            have hlen := splitAtPat_length _ _ _ _ heq
            have hih := ih after
            simp only [segLen, List.length_cons, List.length_append,
              List.length_nil, List.tail_cons, List.drop] at hlen ⊢
            omega
        · simp [segLen]
      · split
        · split
          · rename_i hc hopt inner after heq
            rw [Bool.and_eq_true] at hc
            have hsw := hc.2
            cases rest with
            | nil => simp [startsWith] at hsw
            | cons d t =>
              have hlen := splitAtPat_length _ _ _ _ heq
              have hih := ih after
              simp only [segLen, List.length_cons, List.length_append,
                List.length_nil, List.tail_cons, List.drop] at hlen ⊢
              omega
          · simp [segLen]
        · split
          · split
            · rename_i hc hopt inner after heq
              rw [Bool.and_eq_true] at hc
              have hsw := hc.2
              cases rest with
              | nil => simp [startsWith] at hsw
              | cons d t =>
                have hlen := splitAtPat_length _ _ _ _ heq
                have hih := ih after
                simp only [segLen, List.length_cons, List.length_append,
                  List.length_nil, List.tail_cons, List.drop] at hlen ⊢
                omega
            · simp [segLen]
          · split
            · split
              · rename_i hc hopt inner after heq
                rw [Bool.and_eq_true] at hc
                have hsw := hc.2
                cases rest with
                | nil => simp [startsWith] at hsw
                | cons d t =>
                  have hlen := splitAtPat_length _ _ _ _ heq
                  have hih := ih after
                  simp only [segLen, List.length_cons, List.length_append,
                    List.length_nil, List.tail_cons, List.drop] at hlen ⊢
                  omega
              · simp [segLen]
            · have hrest := ih rest
              cases hseg : segmentize cfg fuel rest with
              | nil =>
                simp [segLen]
              | cons hd tl =>
                rw [hseg] at hrest
                obtain ⟨b, chunk⟩ := hd
                cases b with
                | false =>
                  simp only [segLen, List.length_cons] at hrest ⊢
                  omega
                | true =>
                  simp only [segLen, List.length_cons, List.length_nil]
                    at hrest ⊢
                  omega

theorem procSegs_length_le (doR : Bool) : ∀ (segs : List (Bool × Bytes))
    (doL : Bool), (procSegs doR doL segs).length ≤ segLen segs
  | [], _ => by simp [procSegs, segLen]
  | (israw, chunk) :: rest, doL => by
    have ih := procSegs_length_le doR rest false
    have hc : (collapseWs chunk).length ≤ chunk.length :=
      collapseWs_length_le chunk
    have hd : ((if doL then (collapseWs chunk).dropWhile isWs
        else collapseWs chunk)).length ≤ chunk.length := by
      by_cases hl : doL = true
      · rw [if_pos hl]
        exact le_trans (List.dropWhile_sublist _).length_le hc
      · rw [if_neg hl]
        exact hc
    simp only [procSegs, segLen, List.length_append]
    by_cases hr : israw = true
    · rw [if_pos hr]
      omega
    · rw [if_neg hr]
      by_cases he : (rest.isEmpty && doR) = true
      · rw [if_pos he]
        have := le_trans (trimRight_length_le _) hd
        omega
      · rw [if_neg he]
        omega

theorem minifyText_length_le (cfg : Cfg) (doL doR : Bool) (v : Bytes) :
    (minifyText cfg doL doR v).length ≤ v.length :=
  le_trans (procSegs_length_le doR _ doL) (segmentize_segLen_le cfg _ v)

theorem serializeAttrsGo_cons (cfg : Cfg) (b : Bool) (k v : Bytes)
    (rest : List (Bytes × Bytes)) :
    serializeAttrsGo cfg b ((k, v) :: rest) =
      (if cfg.keep_spaces_between_attributes || !b then [' '] else [])
        ++ serializeAttr cfg k v
        ++ serializeAttrsGo cfg (endsWithQuote (serializeAttr cfg k v))
            rest := rfl

theorem serializeAttrsGo_cons_length (cfg : Cfg) (b : Bool) (k v : Bytes)
    (rest : List (Bytes × Bytes)) :
    (serializeAttrsGo cfg b ((k, v) :: rest)).length =
      sepL cfg b + (serializeAttr cfg k v).length
        + (serializeAttrsGo cfg (endsWithQuote (serializeAttr cfg k v))
            rest).length := by
  rw [serializeAttrsGo_cons]
  simp only [List.length_append, sepL]
  by_cases h : (cfg.keep_spaces_between_attributes || !b) = true
  · rw [if_pos h, if_pos h]
    simp
  · rw [if_neg h, if_neg h]
    simp

theorem sepL_le_one (cfg : Cfg) (b : Bool) : sepL cfg b ≤ 1 := by
  unfold sepL
  split <;> simp

theorem serializeAttrsGo_flag_mono (cfg : Cfg) (b b' : Bool)
    (h : sepL cfg b' ≤ sepL cfg b) (l : List (Bytes × Bytes)) :
    (serializeAttrsGo cfg b' l).length
      ≤ (serializeAttrsGo cfg b l).length := by
  cases l with
  | nil => simp [serializeAttrsGo]
  | cons kv rest =>
    obtain ⟨k, v⟩ := kv
    rw [serializeAttrsGo_cons_length, serializeAttrsGo_cons_length]
    omega

theorem serializeAttrsGo_flag_le_succ (cfg : Cfg) (b b' : Bool)
    (l : List (Bytes × Bytes)) :
    (serializeAttrsGo cfg b' l).length
      ≤ (serializeAttrsGo cfg b l).length + 1 := by
  cases l with
  | nil => simp [serializeAttrsGo]
  | cons kv rest =>
    obtain ⟨k, v⟩ := kv
    rw [serializeAttrsGo_cons_length, serializeAttrsGo_cons_length]
    have := sepL_le_one cfg b'
    omega

theorem endsWithQuote_nonempty (p : Bytes) (h : endsWithQuote p = true) :
    1 ≤ p.length := by
  cases p with
  | nil => simp [endsWithQuote] at h
  | cons c r => simp

theorem serializeAttrsGo_filter_le (cfg : Cfg) (P : Bytes × Bytes → Bool) :
    ∀ (l : List (Bytes × Bytes)) (b b' : Bool),
    sepL cfg b ≤ sepL cfg b' →
    (serializeAttrsGo cfg b (l.filter P)).length
      ≤ (serializeAttrsGo cfg b' l).length
  | [], b, b', _ => by simp [serializeAttrsGo]
  | (k, v) :: rest, b, b', h => by
    rw [List.filter_cons]
    by_cases hp : P (k, v) = true
    · rw [if_pos hp]
      rw [serializeAttrsGo_cons_length, serializeAttrsGo_cons_length]
      have := serializeAttrsGo_filter_le cfg P rest
        (endsWithQuote (serializeAttr cfg k v))
        (endsWithQuote (serializeAttr cfg k v)) le_rfl
      omega
    · rw [if_neg hp]
      rw [serializeAttrsGo_cons_length]
      by_cases hq : sepL cfg b
          ≤ sepL cfg (endsWithQuote (serializeAttr cfg k v))
      · have := serializeAttrsGo_filter_le cfg P rest b
          (endsWithQuote (serializeAttr cfg k v)) hq
        omega
      · have hb1 := sepL_le_one cfg b
        have hq0 : sepL cfg (endsWithQuote (serializeAttr cfg k v)) = 0 := by
          omega
        have hewq : endsWithQuote (serializeAttr cfg k v) = true := by
          by_contra hx
          simp only [Bool.not_eq_true] at hx
          rw [hx] at hq0
          simp [sepL] at hq0
        have hp1 : 1 ≤ (serializeAttr cfg k v).length :=
          endsWithQuote_nonempty _ hewq
        have h1 := serializeAttrsGo_filter_le cfg P rest b b le_rfl
        have h2 := serializeAttrsGo_flag_le_succ cfg
          (endsWithQuote (serializeAttr cfg k v)) b rest
        omega

theorem filterAttrs_length_le (cfg : Cfg) (name : Bytes)
    (attrs : List (Bytes × Bytes)) :
    (serializeAttrsGo cfg false (filterAttrs cfg name attrs)).length
      ≤ (serializeAttrsGo cfg false attrs).length := by
  unfold filterAttrs
  split
  · exact serializeAttrsGo_filter_le cfg _ attrs false false le_rfl
  · exact le_rfl

theorem serializeNode_element_le (cfg : Cfg) (omitOk : Bool)
    (attrs : List (Bytes × Bytes)) (children : List NodeData)
    (ct : ElementClosingTag) (name : Bytes) (ens : Namespace)
    (hch : (serializeList cfg children).length ≤ upperSerList cfg children) :
    (serializeNode cfg omitOk (.element attrs children ct name ens)).length
      ≤ upperSerNode cfg (.element attrs children ct name ens) := by
  have hf := filterAttrs_length_le cfg name attrs
  have heq : serializeNode cfg omitOk (.element attrs children ct name ens)
      = (if (!cfg.keep_html_and_head_opening_tags
            && (tagIs name "html" || tagIs name "head") && attrs.isEmpty
            && ens == Namespace.html
            && !(ct == ElementClosingTag.present
              && !(!cfg.keep_closing_tags && ens == Namespace.html
                   && inTable name OMITTABLE_CLOSING_TAGS && omitOk)))
          then []
          else '<' :: (name
            ++ serializeAttrsGo cfg false (filterAttrs cfg name attrs)
            ++ (if ct == ElementClosingTag.selfClosing then ['/', '>']
                else ['>'])))
        ++ serializeList cfg children
        ++ (if (ct == ElementClosingTag.present
              && !(!cfg.keep_closing_tags && ens == Namespace.html
                   && inTable name OMITTABLE_CLOSING_TAGS && omitOk))
            then '<' :: '/' :: (name ++ ['>']) else []) := rfl
  rw [heq]
  generalize heq2 : (ct == ElementClosingTag.present
      && !(!cfg.keep_closing_tags && ens == Namespace.html
           && inTable name OMITTABLE_CLOSING_TAGS && omitOk)) = eC
  have hlink : eC = true → ct = ElementClosingTag.present := by
    intro h
    rw [← heq2, Bool.and_eq_true] at h
    exact eq_of_beq h.1
  generalize (!cfg.keep_html_and_head_opening_tags
      && (tagIs name "html" || tagIs name "head") && attrs.isEmpty
      && ens == Namespace.html && !eC) = eL
  simp only [upperSerNode, List.length_append]
  cases eC with
  | true =>
    have hct := hlink rfl
    subst hct
    cases eL <;> simp <;> omega
  | false =>
    cases hsc : (ct == ElementClosingTag.selfClosing) with
    | true =>
      cases eL <;> simp <;> omega
    | false =>
      cases eL <;> simp <;> omega

mutual

theorem serializeNode_le_upper (cfg : Cfg) (omitOk : Bool) :
    ∀ n : NodeData,
    (serializeNode cfg omitOk n).length ≤ upperSerNode cfg n
  | .text v => le_of_eq rfl
  | .comment code ended => by
    cases ended <;> simp [serializeNode, upperSerNode] <;> omega
  | .bang code ended => by
    cases ended <;>
      simp only [serializeNode, upperSerNode, List.length_cons,
        List.length_append] <;>
      split <;>
      simp [lowerBytes] <;>
      omega
  | .instruction code ended => by
    cases ended <;> simp [serializeNode, upperSerNode] <;> omega
  | .scriptOrStyleContent code lang => le_of_eq rfl
  | .element attrs children ct name ens =>
    serializeNode_element_le cfg omitOk attrs children ct name ens
      (serializeList_le_upper cfg children)

theorem serializeList_le_upper (cfg : Cfg) :
    ∀ l : List NodeData,
    (serializeList cfg l).length ≤ upperSerList cfg l
  | [] => le_of_eq rfl
  | n :: rest => by
    have h2 := serializeList_le_upper cfg rest
    simp only [serializeList, upperSerList, List.length_append]
    exact Nat.add_le_add (serializeNode_le_upper cfg _ n) h2

end

mutual

theorem removeNode_upper_le (cfg : Cfg) :
    ∀ n : NodeData, upperSerNode cfg (removeNode cfg n) ≤ upperSerNode cfg n
  | .element a c ct nm ns => by
    have h := removeNodes_upper_le cfg c
    simp only [removeNode, upperSerNode]
    omega
  | .bang _ _ => le_rfl
  | .comment _ _ => le_rfl
  | .instruction _ _ => le_rfl
  | .scriptOrStyleContent _ _ => le_rfl
  | .text _ => le_rfl

theorem removeNodes_upper_le (cfg : Cfg) :
    ∀ l : List NodeData,
    upperSerList cfg (removeNodes cfg l) ≤ upperSerList cfg l
  | [] => le_rfl
  | .comment code ended :: rest => by
    have h := removeNodes_upper_le cfg rest
    simp only [removeNodes]
    split
    · simp only [upperSerList]
      omega
    · simp only [upperSerList]
      omega
  | .bang code ended :: rest => by
    have h := removeNodes_upper_le cfg rest
    simp only [removeNodes]
    split
    · simp only [upperSerList]
      omega
    · simp only [upperSerList]
      omega
  | .instruction code ended :: rest => by
    have h := removeNodes_upper_le cfg rest
    simp only [removeNodes]
    split
    · simp only [upperSerList]
      omega
    · simp only [upperSerList]
      omega
  | .element a c ct nm ns :: rest => by
    have h1 := removeNode_upper_le cfg (.element a c ct nm ns)
    have h2 := removeNodes_upper_le cfg rest
    simp only [removeNodes, upperSerList]
    omega
  | .scriptOrStyleContent code lg :: rest => by
    have h2 := removeNodes_upper_le cfg rest
    simp only [removeNodes, removeNode, upperSerList]
    omega
  | .text v :: rest => by
    have h2 := removeNodes_upper_le cfg rest
    simp only [removeNodes, removeNode, upperSerList]
    omega

end

theorem mergeAdj_upper_le (cfg : Cfg) :
    ∀ l : List NodeData, upperSerList cfg (mergeAdj l) ≤ upperSerList cfg l
  | [] => le_rfl
  | .text a :: rest => by
    have h := mergeAdj_upper_le cfg rest
    simp only [mergeAdj]
    cases hm : mergeAdj rest with
    | nil =>
      rw [hm] at h
      simp only [upperSerList, upperSerNode] at h ⊢
      omega
    | cons hd tl =>
      rw [hm] at h
      cases hd with
      | text b =>
        simp only [upperSerList, upperSerNode, List.length_append] at h ⊢
        omega
      | bang code e =>
        simp only [upperSerList, upperSerNode] at h ⊢
        omega
      | comment code e =>
        simp only [upperSerList, upperSerNode] at h ⊢
        omega
      | element a2 c2 ct2 nm2 ns2 =>
        simp only [upperSerList, upperSerNode] at h ⊢
        omega
      | instruction code e =>
        simp only [upperSerList, upperSerNode] at h ⊢
        omega
      | scriptOrStyleContent code lg =>
        simp only [upperSerList, upperSerNode] at h ⊢
        omega
  | .bang code e :: rest => by
    have h := mergeAdj_upper_le cfg rest
    simp only [mergeAdj, upperSerList]
    omega
  | .comment code e :: rest => by
    have h := mergeAdj_upper_le cfg rest
    simp only [mergeAdj, upperSerList]
    omega
  | .element a c ct nm ns :: rest => by
    have h := mergeAdj_upper_le cfg rest
    simp only [mergeAdj, upperSerList]
    omega
  | .instruction code e :: rest => by
    have h := mergeAdj_upper_le cfg rest
    simp only [mergeAdj, upperSerList]
    omega
  | .scriptOrStyleContent code lg :: rest => by
    have h := mergeAdj_upper_le cfg rest
    simp only [mergeAdj, upperSerList]
    omega

mutual

theorem mergeNode_upper_le (cfg : Cfg) :
    ∀ n : NodeData, upperSerNode cfg (mergeNode n) ≤ upperSerNode cfg n
  | .element a c ct nm ns => by
    have h1 := mergeList_upper_le cfg c
    have h2 := mergeAdj_upper_le cfg (mergeList c)
    simp only [mergeNode, upperSerNode]
    omega
  | .bang _ _ => le_rfl
  | .comment _ _ => le_rfl
  | .instruction _ _ => le_rfl
  | .scriptOrStyleContent _ _ => le_rfl
  | .text _ => le_rfl

theorem mergeList_upper_le (cfg : Cfg) :
    ∀ l : List NodeData, upperSerList cfg (mergeList l) ≤ upperSerList cfg l
  | [] => le_rfl
  | n :: rest => by
    have h1 := mergeNode_upper_le cfg n
    have h2 := mergeList_upper_le cfg rest
    simp only [mergeList, upperSerList]
    omega

end

mutual

theorem wsNode_upper_le (cfg : Cfg) :
    ∀ (pre : Bool) (n : NodeData),
    upperSerNode cfg (wsNode cfg pre n) ≤ upperSerNode cfg n
  | pre, .element a c ct nm ns => by
    have h := wsList_upper_le cfg (pre || inTable nm WS_PRESERVE_TAGS)
      (!(isFormattingTag nm)) (!(isFormattingTag nm)) c
    simp only [wsNode, upperSerNode]
    omega
  | _, .bang _ _ => le_rfl
  | _, .comment _ _ => le_rfl
  | _, .instruction _ _ => le_rfl
  | _, .scriptOrStyleContent _ _ => le_rfl
  | _, .text _ => le_rfl

theorem wsList_upper_le (cfg : Cfg) :
    ∀ (pre parentB leftB : Bool) (l : List NodeData),
    upperSerList cfg (wsList cfg pre parentB leftB l) ≤ upperSerList cfg l
  | _, _, _, [] => le_rfl
  | pre, parentB, leftB, .text v :: rest => by
    simp only [wsList]
    split
    · have h := wsList_upper_le cfg pre parentB false rest
      simp only [upperSerList]
      omega
    · have hmt := minifyText_length_le cfg leftB
        (match rest with | [] => parentB | m :: _ => isBlockish m) v
      split
      · have h := wsList_upper_le cfg pre parentB leftB rest
        simp only [upperSerList, upperSerNode]
        omega
      · have h := wsList_upper_le cfg pre parentB false rest
        simp only [upperSerList, upperSerNode]
        omega
  | pre, parentB, leftB, .element a c ct nm ns :: rest => by
    have h1 := wsNode_upper_le cfg pre (.element a c ct nm ns)
    have h2 := wsList_upper_le cfg pre parentB
      (isBlockish (.element a c ct nm ns)) rest
    simp only [wsList, upperSerList]
    omega
  | pre, parentB, leftB, .bang code e :: rest => by
    have h2 := wsList_upper_le cfg pre parentB
      (isBlockish (.bang code e)) rest
    simp only [wsList, upperSerList, wsNode]
    omega
  | pre, parentB, leftB, .comment code e :: rest => by
    have h2 := wsList_upper_le cfg pre parentB
      (isBlockish (.comment code e)) rest
    simp only [wsList, upperSerList, wsNode]
    omega
  | pre, parentB, leftB, .instruction code e :: rest => by
    have h2 := wsList_upper_le cfg pre parentB
      (isBlockish (.instruction code e)) rest
    simp only [wsList, upperSerList, wsNode]
    omega
  | pre, parentB, leftB, .scriptOrStyleContent code lg :: rest => by
    have h2 := wsList_upper_le cfg pre parentB
      (isBlockish (.scriptOrStyleContent code lg)) rest
    simp only [wsList, upperSerList, wsNode]
    omega

end

theorem transform_upper_le (cfg : Cfg) (doc : Document) :
    upperSerList cfg (transform cfg doc) ≤ upperSerList cfg doc := by
  unfold transform
  calc upperSerList cfg (wsList cfg false true true
          (mergeAdj (mergeList (removeNodes cfg doc))))
      ≤ upperSerList cfg (mergeAdj (mergeList (removeNodes cfg doc))) :=
        wsList_upper_le cfg false true true _
    _ ≤ upperSerList cfg (mergeList (removeNodes cfg doc)) :=
        mergeAdj_upper_le cfg _
    _ ≤ upperSerList cfg (removeNodes cfg doc) := mergeList_upper_le cfg _
    _ ≤ upperSerList cfg doc := removeNodes_upper_le cfg _

theorem minifyDoc_le_upper (cfg : Cfg) (doc : Document) :
    (minifyDoc cfg doc).length ≤ upperSerList cfg doc :=
  le_trans (serializeList_le_upper cfg (transform cfg doc))
    (transform_upper_le cfg doc)

theorem takeWhile_dropWhile_length (p : Char → Bool) :
    ∀ l : Bytes, (l.takeWhile p).length + (l.dropWhile p).length = l.length
  | [] => rfl
  | c :: t => by
    by_cases h : p c
    · rw [List.takeWhile_cons_of_pos h, List.dropWhile_cons_of_pos h]
      have := takeWhile_dropWhile_length p t
      simp only [List.length_cons]
      omega
    · rw [List.takeWhile_cons_of_neg h, List.dropWhile_cons_of_neg h]
      simp

theorem takeWhile_sat (p : Char → Bool) :
    ∀ l : Bytes, (l.takeWhile p).all p = true
  | [] => rfl
  | c :: t => by
    by_cases h : p c
    · rw [List.takeWhile_cons_of_pos h]
      simp [h, takeWhile_sat p t]
    · rw [List.takeWhile_cons_of_neg h]
      rfl

theorem serializeAttr_length_ge_name (cfg : Cfg) (k v : Bytes) :
    k.length ≤ (serializeAttr cfg k v).length := by
  unfold serializeAttr
  split
  · exact le_rfl
  · split
    · simp only [List.length_append, List.length_cons]
      omega
    · split
      · simp only [List.length_append, List.length_cons, List.length_nil]
        omega
      · split
        · simp only [List.length_append, List.length_cons, List.length_nil]
          omega
        · simp only [List.length_append, List.length_cons, List.length_nil]
          omega

theorem serializeAttr_length_le (cfg : Cfg) (k v : Bytes) :
    (serializeAttr cfg k v).length ≤ k.length + v.length + 3 := by
  unfold serializeAttr
  split
  · omega
  · split
    · simp only [List.length_append, List.length_cons]
      omega
    · split
      · simp only [List.length_append, List.length_cons, List.length_nil]
        omega
      · split
        · simp only [List.length_append, List.length_cons, List.length_nil]
          omega
        · have := List.length_filter_le (fun c => !(c == dquote)) v
          simp only [List.length_append, List.length_cons, List.length_nil]
          omega

theorem endsWithQuote_concat (l : Bytes) (c : Char) :
    endsWithQuote (l ++ [c]) = (c == dquote || c == squote) := by
  simp [endsWithQuote, List.getLast?_concat]

theorem serializeAttr_noquote_le (cfg : Cfg) (k v : Bytes)
    (h : endsWithQuote (serializeAttr cfg k v) = false) :
    (serializeAttr cfg k v).length ≤ k.length + v.length + 1 := by
  unfold serializeAttr at h ⊢
  split at h
  · rename_i h1
    rw [if_pos h1]
    omega
  · rename_i h1
    rw [if_neg h1]
    split at h
    · rename_i h2
      rw [if_pos h2]
      simp only [List.length_append, List.length_cons]
      omega
    · rename_i h2
      rw [if_neg h2]
      split at h
      · rename_i h3
        exfalso
        have hrw : k ++ '=' :: dquote :: (v ++ [dquote])
            = (k ++ '=' :: dquote :: v) ++ [dquote] := by simp
        rw [hrw, endsWithQuote_concat] at h
        simp at h
      · rename_i h3
        split at h
        · rename_i h4
          exfalso
          have hrw : k ++ '=' :: squote :: (v ++ [squote])
              = (k ++ '=' :: squote :: v) ++ [squote] := by simp
          rw [hrw, endsWithQuote_concat] at h
          simp at h
        · rename_i h4
          exfalso
          have hrw : k ++ '=' :: dquote ::
                (v.filter (fun c => !(c == dquote)) ++ [dquote])
              = (k ++ '=' :: dquote :: v.filter (fun c => !(c == dquote)))
                ++ [dquote] := by simp
          rw [hrw, endsWithQuote_concat] at h
          simp at h

theorem canUnquoted_takeWhile (cfg : Cfg)
    (hesc : cfg.ensure_spec_compliant_unquoted_attribute_values = false)
    (d : Char) (r4 : Bytes) (hdq : (d == dquote) = false)
    (hsq : (d == squote) = false)
    (hp : (!(isWs d || d == '>')) = true) :
    canUnquoted cfg
      ((d :: r4).takeWhile fun e => !(isWs e || e == '>')) = true := by
  have hv : (d :: r4).takeWhile (fun e => !(isWs e || e == '>'))
      = d :: r4.takeWhile (fun e => !(isWs e || e == '>')) :=
    List.takeWhile_cons_of_pos hp
  have hall := takeWhile_sat (fun e => !(isWs e || e == '>')) (d :: r4)
  rw [hv] at hall ⊢
  unfold canUnquoted
  simp only [hesc, Bool.not_false, Bool.true_or, Bool.and_true,
    List.isEmpty_cons, Bool.not_false, hdq, hsq, Bool.or_self,
    Bool.not_false, Bool.and_true]
  simp [hall]
  have hpd : isWs d = false ∧ (d == '>') = false := by
    revert hp
    cases isWs d <;> cases d == '>' <;> simp
  refine ⟨hpd.1, fun he => ?_⟩
  rw [he] at hpd
  simp at hpd

theorem serializeAttr_unquoted_eq (cfg : Cfg) (k v : Bytes)
    (hv : v.isEmpty = false) (hcu : canUnquoted cfg v = true) :
    serializeAttr cfg k v = k ++ '=' :: v := by
  unfold serializeAttr
  rw [if_neg (by simp [hv]), if_pos hcu]

theorem insertAttr_not_contains (k v : Bytes) :
    ∀ acc : List (Bytes × Bytes), containsKey acc k = false →
    insertAttr acc k v = acc ++ [(k, v)]
  | [], _ => rfl
  | (k0, v0) :: rest, h => by
    have hpair : (k0 == k) = false ∧ containsKey rest k = false := by
      revert h
      simp only [containsKey]
      cases k0 == k <;> cases containsKey rest k <;> simp
    unfold insertAttr
    rw [if_neg (by simp [hpair.1])]
    rw [insertAttr_not_contains k v rest hpair.2]
    rfl

theorem serializeAttrsGo_append_one (cfg : Cfg)
    (hks : cfg.keep_spaces_between_attributes = false) (k v : Bytes) :
    ∀ (acc : List (Bytes × Bytes)) (b : Bool),
    (serializeAttrsGo cfg b (acc ++ [(k, v)])).length
      = (serializeAttrsGo cfg b acc).length
        + (if serAccQ cfg b acc then 0 else 1)
        + (serializeAttr cfg k v).length
  | [], b => by
    rw [List.nil_append, serializeAttrsGo_cons_length]
    simp only [serAccQ, sepL, hks, Bool.false_or]
    cases b <;> simp [serializeAttrsGo]
  | (k0, v0) :: rest, b => by
    have := serializeAttrsGo_append_one cfg hks k v rest
      (endsWithQuote (serializeAttr cfg k0 v0))
    rw [List.cons_append, serializeAttrsGo_cons_length,
      serializeAttrsGo_cons_length]
    simp only [serAccQ]
    omega

theorem serAccQ_concat (cfg : Cfg) (k v : Bytes) :
    ∀ (acc : List (Bytes × Bytes)) (b : Bool),
    serAccQ cfg b (acc ++ [(k, v)])
      = endsWithQuote (serializeAttr cfg k v)
  | [], b => rfl
  | (k0, v0) :: rest, b => by
    rw [List.cons_append]
    simp only [serAccQ]
    exact serAccQ_concat cfg k v rest _

theorem serAccQ_insert_of_true (cfg : Cfg) (k v : Bytes)
    (hq : endsWithQuote (serializeAttr cfg k v) = true) :
    ∀ (acc : List (Bytes × Bytes)) (b : Bool),
    containsKey acc k = true → serAccQ cfg b acc = true →
    serAccQ cfg b (insertAttr acc k v) = true
  | [], b, hc, _ => by simp [containsKey] at hc
  | (k0, v0) :: rest, b, hc, hs => by
    unfold insertAttr
    by_cases h0 : (k0 == k) = true
    · rw [if_pos h0]
      obtain rfl := eq_of_beq h0
      cases rest with
      | nil => simpa [serAccQ] using hq
      | cons p rest2 =>
        simp only [serAccQ] at hs ⊢
        obtain ⟨p1, p2⟩ := p
        simp only [serAccQ] at hs ⊢
        exact hs
    · rw [if_neg h0]
      have hc2 : containsKey rest k = true := by
        simp only [containsKey] at hc
        rcases (Bool.or_eq_true _ _).mp hc with h1 | h1
        · exact absurd h1 h0
        · exact h1
      simp only [serAccQ] at hs ⊢
      exact serAccQ_insert_of_true cfg k v hq rest _ hc2 hs

theorem serializeAttrsGo_insert_replace_le (cfg : Cfg) (k v : Bytes)
    (hk : 1 ≤ k.length) :
    ∀ (acc : List (Bytes × Bytes)) (b : Bool), containsKey acc k = true →
    (serializeAttrsGo cfg b (insertAttr acc k v)).length
      ≤ (serializeAttrsGo cfg b acc).length
        + (serializeAttr cfg k v).length
  | [], b, h => by simp [containsKey] at h
  | (k0, v0) :: rest, b, h => by
    unfold insertAttr
    by_cases h0 : (k0 == k) = true
    · rw [if_pos h0]
      obtain rfl := eq_of_beq h0
      rw [serializeAttrsGo_cons_length, serializeAttrsGo_cons_length]
      have h1 := serializeAttrsGo_flag_le_succ cfg
        (endsWithQuote (serializeAttr cfg k0 v0))
        (endsWithQuote (serializeAttr cfg k0 v)) rest
      have h2 := serializeAttr_length_ge_name cfg k0 v0
      omega
    · rw [if_neg h0]
      have hc : containsKey rest k = true := by
        simp only [containsKey] at h
        rcases (Bool.or_eq_true _ _).mp h with h1 | h1
        · exact absurd h1 h0
        · exact h1
      have := serializeAttrsGo_insert_replace_le cfg k v hk rest
        (endsWithQuote (serializeAttr cfg k0 v0)) hc
      rw [serializeAttrsGo_cons_length, serializeAttrsGo_cons_length]
      omega

theorem attrMargin_le_one (cfg : Cfg) (acc : List (Bytes × Bytes))
    (s : Bytes) : attrMargin cfg acc s ≤ 1 := by
  unfold attrMargin
  split <;> simp

theorem attrMargin_zero_of_accQ (cfg : Cfg) (acc : List (Bytes × Bytes))
    (s : Bytes) (h : serAccQ cfg false acc = true) :
    attrMargin cfg acc s = 0 := by
  unfold attrMargin
  rw [h]
  simp

theorem attrMargin_zero_of_head (cfg : Cfg) (acc : List (Bytes × Bytes))
    (s : Bytes) (h : tokenStart s = false) :
    attrMargin cfg acc s = 0 := by
  unfold attrMargin
  rw [h]
  simp

theorem tokenStart_after_value (l : Bytes) :
    tokenStart (l.drop
      ((l.takeWhile fun e => !(isWs e || e == '>')).length)) = false := by
  rw [drop_takeWhile_eq_dropWhile]
  cases hd : l.dropWhile (fun e => !(isWs e || e == '>')) with
  | nil => rfl
  | cons c r =>
    have h := dropWhile_head_false _ l c r hd
    have h2 : (isWs c || c == '>') = true := by
      revert h
      cases isWs c || c == '>' <;> simp
    simp only [tokenStart, h2]
    rcases (Bool.or_eq_true _ _).mp h2 with h3 | h3
    · simp [h3]
    · simp [h3]

theorem tokenStart_afterName (l : Bytes) :
    tokenStart (l.drop
      ((l.takeWhile fun e =>
        !(isWs e || e == '/' || e == '>')).length)) = false := by
  rw [drop_takeWhile_eq_dropWhile]
  cases hd : l.dropWhile (fun e => !(isWs e || e == '/' || e == '>')) with
  | nil => rfl
  | cons c r =>
    have h := dropWhile_head_false _ l c r hd
    have h2 : (isWs c || c == '/' || c == '>') = true := by
      revert h
      cases isWs c || c == '/' || c == '>' <;> simp
    simp only [tokenStart]
    rcases (Bool.or_eq_true _ _).mp h2 with h3 | h3
    · rcases (Bool.or_eq_true _ _).mp h3 with h4 | h4
      · simp [h4]
      · simp [h4]
    · simp [h3]

theorem tokenStart_afterAttrName (l : Bytes) :
    tokenStart (l.drop
      ((l.takeWhile fun d =>
        !(isWs d || d == '>' || d == '/' || d == '=')).length)) = false := by
  rw [drop_takeWhile_eq_dropWhile]
  cases hd : l.dropWhile
      (fun d => !(isWs d || d == '>' || d == '/' || d == '=')) with
  | nil => rfl
  | cons c r =>
    have h := dropWhile_head_false _ l c r hd
    simpa [tokenStart] using h

theorem sepAfter_le_margin (cfg : Cfg) (acc : List (Bytes × Bytes))
    (s : Bytes) (c : Char) (r : Bytes)
    (hd : s.dropWhile isWs = c :: r)
    (h1 : c = '>' → False) (h2 : c = '/' → False) (h3 : c = '=' → False) :
    (if serAccQ cfg false acc then 0 else 1)
      ≤ attrMargin cfg acc s + (s.takeWhile isWs).length := by
  cases s with
  | nil => simp [List.dropWhile] at hd
  | cons a t =>
    by_cases hw : isWs a = true
    · rw [List.takeWhile_cons_of_pos hw]
      have hle : (if serAccQ cfg false acc then 0 else 1) ≤ 1 := by
        split <;> simp
      simp only [List.length_cons]
      omega
    · rw [List.dropWhile_cons_of_neg (by simp [hw])] at hd
      injection hd with hca hta
      subst hca
      have hwf : isWs a = false := by
        revert hw
        cases isWs a <;> simp
      have hb1 : (a == '>') = false := by
        cases hx : a == '>'
        · rfl
        · exact absurd (eq_of_beq hx) h1
      have hb2 : (a == '/') = false := by
        cases hx : a == '/'
        · rfl
        · exact absurd (eq_of_beq hx) h2
      have hb3 : (a == '=') = false := by
        cases hx : a == '='
        · rfl
        · exact absurd (eq_of_beq hx) h3
      have hts : tokenStart (a :: t) = true := by
        simp [tokenStart, hwf, hb1, hb2, hb3]
      unfold attrMargin
      rw [hts]
      cases hq : serAccQ cfg false acc
      · simp
      · simp

theorem insertAttr_step_tight (cfg : Cfg)
    (hks : cfg.keep_spaces_between_attributes = false)
    (acc : List (Bytes × Bytes)) (s : Bytes) (c : Char) (r : Bytes)
    (name v after : Bytes) (partBound : Nat)
    (heq : s.dropWhile isWs = c :: r)
    (h1 : c = '>' → False) (h2 : c = '/' → False) (h3 : c = '=' → False)
    (hn1 : 1 ≤ name.length)
    (hts : tokenStart after = false)
    (hpart : (serializeAttr cfg name v).length ≤ partBound) :
    (serializeAttrsGo cfg false (insertAttr acc name v)).length
        + attrMargin cfg (insertAttr acc name v) after
      ≤ (serializeAttrsGo cfg false acc).length + attrMargin cfg acc s
        + (s.takeWhile isWs).length + partBound := by
  have hm0 := attrMargin_zero_of_head cfg (insertAttr acc name v) after hts
  have hsep := sepAfter_le_margin cfg acc s c r heq h1 h2 h3
  by_cases hck : containsKey acc name = true
  · have hrep := serializeAttrsGo_insert_replace_le cfg name v hn1 acc
      false hck
    omega
  · have hckf : containsKey acc name = false := by
      revert hck
      cases containsKey acc name <;> simp
    have happ := insertAttr_not_contains name v acc hckf
    have hElen := serializeAttrsGo_append_one cfg hks name v acc false
    rw [← happ] at hElen
    by_cases hsq : serAccQ cfg false acc = true
    · rw [if_pos hsq] at hElen hsep
      omega
    · rw [if_neg hsq] at hElen hsep
      omega

theorem insertAttr_step_loose (cfg : Cfg)
    (hks : cfg.keep_spaces_between_attributes = false)
    (acc : List (Bytes × Bytes)) (s : Bytes) (c : Char) (r : Bytes)
    (name v after : Bytes)
    (heq : s.dropWhile isWs = c :: r)
    (h1 : c = '>' → False) (h2 : c = '/' → False) (h3 : c = '=' → False)
    (hn1 : 1 ≤ name.length) :
    (serializeAttrsGo cfg false (insertAttr acc name v)).length
        + attrMargin cfg (insertAttr acc name v) after
      ≤ (serializeAttrsGo cfg false acc).length + attrMargin cfg acc s
        + (s.takeWhile isWs).length + name.length + v.length + 3 := by
  have hsep := sepAfter_le_margin cfg acc s c r heq h1 h2 h3
  have hm1 := attrMargin_le_one cfg (insertAttr acc name v) after
  by_cases hqe : endsWithQuote (serializeAttr cfg name v) = true
  · have hplen := serializeAttr_length_le cfg name v
    by_cases hck : containsKey acc name = true
    · have hrep := serializeAttrsGo_insert_replace_le cfg name v hn1 acc
        false hck
      by_cases hsq : serAccQ cfg false acc = true
      · have hm0 := attrMargin_zero_of_accQ cfg (insertAttr acc name v)
          after (serAccQ_insert_of_true cfg name v hqe acc false hck hsq)
        omega
      · rw [if_neg hsq] at hsep
        omega
    · have hckf : containsKey acc name = false := by
        revert hck
        cases containsKey acc name <;> simp
      have happ := insertAttr_not_contains name v acc hckf
      have hElen := serializeAttrsGo_append_one cfg hks name v acc false
      rw [← happ] at hElen
      have hsaq : serAccQ cfg false (insertAttr acc name v) = true := by
        rw [happ, serAccQ_concat]
        exact hqe
      have hm0 := attrMargin_zero_of_accQ cfg _ after hsaq
      by_cases hsq : serAccQ cfg false acc = true
      · rw [if_pos hsq] at hElen hsep
        omega
      · rw [if_neg hsq] at hElen hsep
        omega
  · have hqef : endsWithQuote (serializeAttr cfg name v) = false := by
      revert hqe
      cases endsWithQuote (serializeAttr cfg name v) <;> simp
    have hplen := serializeAttr_noquote_le cfg name v hqef
    by_cases hck : containsKey acc name = true
    · have hrep := serializeAttrsGo_insert_replace_le cfg name v hn1 acc
        false hck
      omega
    · have hckf : containsKey acc name = false := by
        revert hck
        cases containsKey acc name <;> simp
      have happ := insertAttr_not_contains name v acc hckf
      have hElen := serializeAttrsGo_append_one cfg hks name v acc false
      rw [← happ] at hElen
      by_cases hsq : serAccQ cfg false acc = true
      · rw [if_pos hsq] at hElen hsep
        omega
      · rw [if_neg hsq] at hElen hsep
        omega

theorem parseAttrs_accounting (cfg : Cfg)
    (hks : cfg.keep_spaces_between_attributes = false)
    (hesc : cfg.ensure_spec_compliant_unquoted_attribute_values = false) :
    ∀ (fuel : Nat) (acc : List (Bytes × Bytes)) (s : Bytes)
    (out : List (Bytes × Bytes)) (sc : Bool) (rest : Bytes),
    parseAttrs fuel acc s = .done out sc rest →
    (serializeAttrsGo cfg false out).length + (if sc then 2 else 1)
        + rest.length
      ≤ (serializeAttrsGo cfg false acc).length + attrMargin cfg acc s
        + s.length := by
  intro fuel
  induction fuel with
  | zero =>
    intro acc s out sc rest h
    simp [parseAttrs] at h
  | succ fuel ih =>
    intro acc s out sc rest h
    have hsd := takeWhile_dropWhile_length isWs s
    unfold parseAttrs at h
    split at h
    · simp at h
    · rename_i r heq
      simp only [AttrsResult.done.injEq] at h
      obtain ⟨h1, h2, h3⟩ := h
      subst h1
      subst h2
      subst h3
      rw [if_neg (by simp)]
      rw [heq] at hsd
      simp only [List.length_cons] at hsd
      omega
    · rename_i r heq
      split at h
      · simp only [AttrsResult.done.injEq] at h
        obtain ⟨h1, h2, h3⟩ := h
        subst h1
        subst h2
        subst h3
        rw [if_pos rfl]
        rw [heq] at hsd
        simp only [List.length_cons] at hsd
        omega
      · have hih := ih _ _ _ _ _ h
        have hm1 := attrMargin_le_one cfg acc r
        rw [heq] at hsd
        simp only [List.length_cons] at hsd
        omega
    · rename_i r heq
      have hih := ih _ _ _ _ _ h
      have hm1 := attrMargin_le_one cfg acc r
      rw [heq] at hsd
      simp only [List.length_cons] at hsd
      omega
    · rename_i c r hne1 hne2 hne3 heq
      have hwfc : isWs c = false := dropWhile_head_false isWs s c r heq
      have hb1 : (c == '>') = false := by
        cases hx : c == '>'
        · rfl
        · exact absurd (eq_of_beq hx) hne1
      have hb2 : (c == '/') = false := by
        cases hx : c == '/'
        · rfl
        · exact absurd (eq_of_beq hx) hne2
      have hb3 : (c == '=') = false := by
        cases hx : c == '='
        · rfl
        · exact absurd (eq_of_beq hx) hne3
      have hPc : (!(isWs c || c == '>' || c == '/' || c == '=')) = true := by
        simp [hwfc, hb1, hb2, hb3]
      have htwc : (c :: r).takeWhile (fun d =>
          !(isWs d || d == '>' || d == '/' || d == '='))
          = c :: r.takeWhile (fun d =>
            !(isWs d || d == '>' || d == '/' || d == '=')) :=
        List.takeWhile_cons_of_pos hPc
      have hn1 : 1 ≤ ((c :: r).takeWhile fun d =>
          !(isWs d || d == '>' || d == '/' || d == '=')).length := by
        rw [htwc]
        simp
      have hanl := takeWhile_dropWhile_length
        (fun d => !(isWs d || d == '>' || d == '/' || d == '=')) (c :: r)
      rw [← drop_takeWhile_eq_dropWhile] at hanl
      simp only [List.length_cons] at hanl
      rw [heq] at hsd
      simp only [List.length_cons] at hsd
      simp only [] at h
      split at h
      · rename_i r2 heq2
        have han := takeWhile_dropWhile_length isWs
          ((c :: r).drop (((c :: r).takeWhile fun d =>
            !(isWs d || d == '>' || d == '/' || d == '=')).length))
        rw [heq2] at han
        simp only [List.length_cons] at han
        split at h
        · simp at h
        · rename_i d r4 heq3
          have hr4 := takeWhile_dropWhile_length isWs r2
          rw [heq3] at hr4
          simp only [List.length_cons] at hr4
          split at h
          · rename_i hdq
            split at h
            · rename_i v after heq4
              have hih := ih _ _ _ _ _ h
              have hsplit := splitAtPat_length _ _ _ _ heq4
              simp only [List.length_cons, List.length_nil] at hsplit
              have hstep := insertAttr_step_loose cfg hks acc s c r
                ((c :: r).takeWhile fun d =>
                  !(isWs d || d == '>' || d == '/' || d == '=')) v after
                heq hne1 hne2 hne3 hn1
              omega
            · simp at h
          · rename_i hdq
            split at h
            · rename_i hsq2
              split at h
              · rename_i v after heq4
                have hih := ih _ _ _ _ _ h
                have hsplit := splitAtPat_length _ _ _ _ heq4
                simp only [List.length_cons, List.length_nil] at hsplit
                have hstep := insertAttr_step_loose cfg hks acc s c r
                  ((c :: r).takeWhile fun d =>
                    !(isWs d || d == '>' || d == '/' || d == '=')) v after
                  heq hne1 hne2 hne3 hn1
                omega
              · simp at h
            · rename_i hsq2
              have hih := ih _ _ _ _ _ h
              have hvl := takeWhile_dropWhile_length
                (fun e => !(isWs e || e == '>')) (d :: r4)
              rw [← drop_takeWhile_eq_dropWhile] at hvl
              simp only [List.length_cons] at hvl
              have hts := tokenStart_after_value (d :: r4)
              have hpart : (serializeAttr cfg
                  ((c :: r).takeWhile fun d =>
                    !(isWs d || d == '>' || d == '/' || d == '='))
                  ((d :: r4).takeWhile fun e =>
                    !(isWs e || e == '>'))).length
                  ≤ ((c :: r).takeWhile fun d =>
                      !(isWs d || d == '>' || d == '/' || d == '=')).length
                    + ((d :: r4).takeWhile fun e =>
                      !(isWs e || e == '>')).length + 1 := by
                by_cases hpd : (!(isWs d || d == '>')) = true
                · have hdqf : (d == dquote) = false := by
                    revert hdq
                    cases d == dquote <;> simp
                  have hsqf : (d == squote) = false := by
                    revert hsq2
                    cases d == squote <;> simp
                  have hcu := canUnquoted_takeWhile cfg hesc d r4 hdqf
                    hsqf hpd
                  have hvtw : (d :: r4).takeWhile (fun e =>
                      !(isWs e || e == '>'))
                      = d :: r4.takeWhile (fun e => !(isWs e || e == '>')) :=
                    List.takeWhile_cons_of_pos hpd
                  have hvne : ((d :: r4).takeWhile fun e =>
                      !(isWs e || e == '>')).isEmpty = false := by
                    rw [hvtw]
                    rfl
                  rw [serializeAttr_unquoted_eq cfg _ _ hvne hcu]
                  simp only [List.length_append, List.length_cons]
                  omega
                · have hvnil : ((d :: r4).takeWhile fun e =>
                      !(isWs e || e == '>')) = [] :=
                    List.takeWhile_cons_of_neg hpd
                  rw [hvnil]
                  have hse : serializeAttr cfg
                      ((c :: r).takeWhile fun d =>
                        !(isWs d || d == '>' || d == '/' || d == '=')) []
                      = (c :: r).takeWhile fun d =>
                        !(isWs d || d == '>' || d == '/' || d == '=') := by
                    simp [serializeAttr]
                  rw [hse]
                  simp
              have hstep := insertAttr_step_tight cfg hks acc s c r
                ((c :: r).takeWhile fun d =>
                  !(isWs d || d == '>' || d == '/' || d == '='))
                ((d :: r4).takeWhile fun e => !(isWs e || e == '>'))
                ((d :: r4).drop (((d :: r4).takeWhile fun e =>
                  !(isWs e || e == '>')).length))
                (((c :: r).takeWhile fun d =>
                    !(isWs d || d == '>' || d == '/' || d == '=')).length
                  + ((d :: r4).takeWhile fun e =>
                    !(isWs e || e == '>')).length + 1)
                heq hne1 hne2 hne3 hn1 hts hpart
              omega
      · have hih := ih _ _ _ _ _ h
        have hts := tokenStart_afterAttrName (c :: r)
        have hpart : (serializeAttr cfg
            ((c :: r).takeWhile fun d =>
              !(isWs d || d == '>' || d == '/' || d == '=')) []).length
            ≤ ((c :: r).takeWhile fun d =>
              !(isWs d || d == '>' || d == '/' || d == '=')).length := by
          have hse : serializeAttr cfg
              ((c :: r).takeWhile fun d =>
                !(isWs d || d == '>' || d == '/' || d == '=')) []
              = (c :: r).takeWhile fun d =>
                !(isWs d || d == '>' || d == '/' || d == '=') := by
            simp [serializeAttr]
          rw [hse]
        have hstep := insertAttr_step_tight cfg hks acc s c r
          ((c :: r).takeWhile fun d =>
            !(isWs d || d == '>' || d == '/' || d == '=')) []
          ((c :: r).drop (((c :: r).takeWhile fun d =>
            !(isWs d || d == '>' || d == '/' || d == '=')).length))
          (((c :: r).takeWhile fun d =>
            !(isWs d || d == '>' || d == '/' || d == '=')).length)
          heq hne1 hne2 hne3 hn1 hts hpart
        omega

theorem scanRaw_some_length (closeName : Bytes) :
    ∀ (fuel : Nat) (s content r : Bytes),
    scanRaw closeName fuel s = (content, some r) →
    content.length + 3 + closeName.length + r.length ≤ s.length := by
  intro fuel
  induction fuel with
  | zero =>
    intro s content r h
    simp [scanRaw] at h
  | succ fuel ih =>
    intro s content r h
    cases s with
    | nil => simp [scanRaw] at h
    | cons c rest =>
      unfold scanRaw at h
      simp only [] at h
      split at h
      · rename_i hsw
        have hswl := startsWith_length _ _ hsw
        rw [lowerBytes_length] at hswl
        simp only [List.length_cons] at hswl
        split at h
        · rename_i r0 heq
          simp only [Prod.mk.injEq, Option.some.injEq] at h
          obtain ⟨h1, h2⟩ := h
          subst h1
          subst h2
          have hdw := takeWhile_dropWhile_length isWs
            ((c :: rest).drop ('<' :: '/' :: closeName).length)
          rw [heq] at hdw
          have hdl : ((c :: rest).drop
              ('<' :: '/' :: closeName).length).length
              + ('<' :: '/' :: closeName).length = (c :: rest).length := by
            rw [List.length_drop]
            simp only [List.length_cons] at hswl ⊢
            omega
          simp only [List.length_cons, List.length_nil] at hdw hdl ⊢
          omega
        · simp only [Prod.mk.injEq] at h
          obtain ⟨h1, h2⟩ := h
          have hih := ih rest (scanRaw closeName fuel rest).1 r
            (by rw [← h2])
          subst h1
          simp only [List.length_cons]
          omega
      · simp only [Prod.mk.injEq] at h
        obtain ⟨h1, h2⟩ := h
        have hih := ih rest (scanRaw closeName fuel rest).1 r
          (by rw [← h2])
        subst h1
        simp only [List.length_cons]
        omega

theorem scanRaw_none_length (closeName : Bytes) :
    ∀ (fuel : Nat) (s content : Bytes),
    scanRaw closeName fuel s = (content, none) →
    content.length ≤ s.length := by
  intro fuel
  induction fuel with
  | zero =>
    intro s content h
    simp only [scanRaw, Prod.mk.injEq] at h
    obtain ⟨h1, _⟩ := h
    subst h1
    exact le_rfl
  | succ fuel ih =>
    intro s content h
    cases s with
    | nil =>
      simp only [scanRaw, Prod.mk.injEq] at h
      obtain ⟨h1, _⟩ := h
      subst h1
      simp
    | cons c rest =>
      unfold scanRaw at h
      simp only [] at h
      split at h
      · split at h
        · simp at h
        · simp only [Prod.mk.injEq] at h
          obtain ⟨h1, h2⟩ := h
          have hih := ih rest (scanRaw closeName fuel rest).1 (by rw [← h2])
          subst h1
          simp only [List.length_cons]
          omega
      · simp only [Prod.mk.injEq] at h
        obtain ⟨h1, h2⟩ := h
        have hih := ih rest (scanRaw closeName fuel rest).1 (by rw [← h2])
        subst h1
        simp only [List.length_cons]
        omega

theorem upperSer_el_void (cfg : Cfg) (attrs : List (Bytes × Bytes))
    (tname : Bytes) (ens : Namespace) :
    upperSerNode cfg (.element attrs [] .void tname ens)
      = 1 + tname.length + (serializeAttrsGo cfg false attrs).length
        + 1 := rfl

theorem upperSer_el_selfClosing (cfg : Cfg) (attrs : List (Bytes × Bytes))
    (tname : Bytes) (ens : Namespace) :
    upperSerNode cfg (.element attrs [] .selfClosing tname ens)
      = 1 + tname.length + (serializeAttrsGo cfg false attrs).length
        + 2 := rfl

theorem upperSer_el_present (cfg : Cfg) (attrs : List (Bytes × Bytes))
    (children : List NodeData) (tname : Bytes) (ens : Namespace) :
    upperSerNode cfg (.element attrs children .present tname ens)
      = 1 + tname.length + (serializeAttrsGo cfg false attrs).length + 1
        + upperSerList cfg children + (3 + tname.length) := rfl

theorem upperSer_el_omitted (cfg : Cfg) (attrs : List (Bytes × Bytes))
    (children : List NodeData) (tname : Bytes) (ens : Namespace) :
    upperSerNode cfg (.element attrs children .omitted tname ens)
      = 1 + tname.length + (serializeAttrsGo cfg false attrs).length + 1
        + upperSerList cfg children := rfl

theorem matchCloseTag_some_length (name s r : Bytes)
    (h : matchCloseTag name s = some r) :
    3 + name.length + r.length ≤ s.length := by
  unfold matchCloseTag at h
  split at h
  · rename_i body
    simp only [] at h
    split at h
    · rename_i hcn
      split at h
      · rename_i g r3 heq2
        simp only [Option.some.injEq] at h
        subst h
        have hnl : (body.takeWhile fun d => !(isWs d || d == '>')).length
            = name.length := by
          rw [eq_of_beq hcn]
        have hdw := takeWhile_dropWhile_length (fun d => !(d == '>'))
          (body.drop
            (body.takeWhile fun d => !(isWs d || d == '>')).length)
        rw [heq2] at hdw
        have htb := takeWhile_dropWhile_length
          (fun d => !(isWs d || d == '>')) body
        rw [← drop_takeWhile_eq_dropWhile] at htb
        simp only [List.length_cons, List.length_drop] at hdw htb ⊢
        omega
      · simp at h
    · simp at h
  · simp at h

theorem parseNodes_upper (cfg : Cfg)
    (hks : cfg.keep_spaces_between_attributes = false)
    (hesc : cfg.ensure_spec_compliant_unquoted_attribute_values = false) :
    ∀ (fuel : Nat) (ns : Namespace) (stack : List Bytes) (s : Bytes),
    upperSerList cfg (parseNodes cfg fuel ns stack s).1
        + (parseNodes cfg fuel ns stack s).2.length ≤ s.length := by
  intro fuel
  induction fuel with
  | zero =>
    intro ns stack s
    simp [parseNodes, upperSerList]
  | succ fuel ih =>
    intro ns stack s
    rw [parseNodes]
    apply parseNodesStep_elim cfg (parseNodes cfg fuel) ns stack s
      (fun res => upperSerList cfg res.1 + res.2.length ≤ s.length)
    case hnil =>
      intro hs
      subst hs
      simp [upperSerList]
    case hcommentC =>
      intro c rest code after hs hc hsw hsp
      subst hs
      have hih := ih ns stack after
      have hswl := startsWith_length _ _ hsw
      have hspl := splitAtPat_length _ _ _ _ hsp
      have hub : upperSerNode cfg (.comment code true)
          = 4 + code.length + 3 := rfl
      have hd3 : (rest.drop 3).length = rest.length - 3 := by simp
      simp only [List.length_cons, List.length_nil] at hswl hspl
      simp only [upperSerList, List.length_cons]
      omega
    case hcommentE =>
      intro c rest hs hc hsw hsp
      subst hs
      have hswl := startsWith_length _ _ hsw
      have hub : upperSerNode cfg (.comment (rest.drop 3) false)
          = 4 + (rest.drop 3).length := rfl
      have hd3 : (rest.drop 3).length = rest.length - 3 := by simp
      simp only [List.length_cons, List.length_nil] at hswl
      simp only [upperSerList, List.length_cons, List.length_nil]
      omega
    case hbangC =>
      intro c rest hd r hs hc hsw3 hsw1 heq
      subst hs
      have hih := ih ns stack r
      have hswl := startsWith_length _ _ hsw1
      have hdw := takeWhile_dropWhile_length (fun d => !(d == '>'))
        (rest.drop 1)
      rw [← drop_takeWhile_eq_dropWhile] at hdw
      rw [heq] at hdw
      have hub : upperSerNode cfg
          (.bang ((rest.drop 1).takeWhile fun d => !(d == '>')) true)
          = 2 + ((rest.drop 1).takeWhile fun d => !(d == '>')).length
            + 1 := rfl
      have hd1 : (rest.drop 1).length = rest.length - 1 := by simp
      simp only [List.length_cons, List.length_nil] at hswl hdw
      simp only [upperSerList, List.length_cons]
      omega
    case hbangE =>
      intro c rest hs hc hsw3 hsw1 heq
      subst hs
      have hswl := startsWith_length _ _ hsw1
      have hdw := takeWhile_dropWhile_length (fun d => !(d == '>'))
        (rest.drop 1)
      rw [← drop_takeWhile_eq_dropWhile] at hdw
      rw [heq] at hdw
      have hub : upperSerNode cfg
          (.bang ((rest.drop 1).takeWhile fun d => !(d == '>')) false)
          = 2 + ((rest.drop 1).takeWhile fun d => !(d == '>')).length :=
        rfl
      have hd1 : (rest.drop 1).length = rest.length - 1 := by simp
      simp only [List.length_cons, List.length_nil] at hswl hdw
      simp only [upperSerList, List.length_cons, List.length_nil]
      omega
    case hinstrC =>
      intro c rest code after hs hc hsw3 hsw1 hswq hsp
      subst hs
      have hih := ih ns stack after
      have hswl := startsWith_length _ _ hswq
      have hspl := splitAtPat_length _ _ _ _ hsp
      have hub : upperSerNode cfg (.instruction code true)
          = 2 + code.length + 2 := rfl
      have hd1 : (rest.drop 1).length = rest.length - 1 := by simp
      simp only [List.length_cons, List.length_nil] at hswl hspl
      simp only [upperSerList, List.length_cons]
      omega
    case hinstrE =>
      intro c rest hs hc hsw3 hsw1 hswq hsp
      subst hs
      have hswl := startsWith_length _ _ hswq
      have hub : upperSerNode cfg (.instruction (rest.drop 1) false)
          = 2 + (rest.drop 1).length := rfl
      have hd1 : (rest.drop 1).length = rest.length - 1 := by simp
      simp only [List.length_cons, List.length_nil] at hswl
      simp only [upperSerList, List.length_cons, List.length_nil]
      omega
    case hchevC =>
      intro c rest inner after hs hc hsw3 hsw1 hswq hcond hsp
      subst hs
      have hih := ih ns stack after
      have hswl := startsWith_length _ _ ((Bool.and_eq_true _ _).mp hcond).2
      have hspl := splitAtPat_length _ _ _ _ hsp
      have hub : upperSerNode cfg
          (.text ('<' :: '%' :: (inner ++ ['%', '>'])))
          = ('<' :: '%' :: (inner ++ ['%', '>'])).length := rfl
      have hlen : ('<' :: '%' :: (inner ++ ['%', '>'])).length
          = inner.length + 4 := by simp
      have hd1 : (rest.drop 1).length = rest.length - 1 := by simp
      simp only [List.length_cons, List.length_nil] at hswl hspl
      simp only [upperSerList, List.length_cons]
      omega
    case hchevE =>
      intro c rest hs hc hsw3 hsw1 hswq hcond hsp
      subst hs
      have hub : upperSerNode cfg (.text (c :: rest))
          = (c :: rest).length := rfl
      have hcr : (c :: rest).length = rest.length + 1 := by simp
      simp only [upperSerList, List.length_cons, List.length_nil]
      omega
    case hcloseIn =>
      intro c rest hd r3 hs hc hsw3 hsw1 hswq hcond hswsl heq hstk
      subst hs
      simp [upperSerList]
    case hcloseOut =>
      intro c rest hd r3 hs hc hsw3 hsw1 hswq hcond hswsl heq hstk
      subst hs
      have hih := ih ns stack r3
      have h1 : (hd :: r3).length ≤ ((rest.drop 1).drop
          ((rest.drop 1).takeWhile fun d =>
            !(isWs d || d == '>')).length).length := by
        rw [← heq]
        exact (List.dropWhile_sublist _).length_le
      have h2 : ((rest.drop 1).drop
          ((rest.drop 1).takeWhile fun d =>
            !(isWs d || d == '>')).length).length ≤ rest.length := by
        simp only [List.length_drop, List.length_cons]
        omega
      simp only [List.length_cons] at h1 ⊢
      omega
    case hcloseE =>
      intro c rest hs hc hsw3 hsw1 hswq hcond hswsl heq
      subst hs
      simp [upperSerList]
    case hltEof =>
      intro c hs hc
      subst hs
      simp [upperSerList, upperSerNode]
    case hltText =>
      intro c d rest2 hs hc hq1 hq2 hq3 hq4 hq5 hal
      subst hs
      have hih := ih ns stack (d :: rest2)
      have hub : upperSerNode cfg (.text ['<']) = 1 := rfl
      simp only [upperSerList, List.length_cons] at hih ⊢
      omega
    case hbr2C =>
      intro c rest inner after hs hc hcond hsp
      subst hs
      have hih := ih ns stack after
      have hswl := startsWith_length _ _ ((Bool.and_eq_true _ _).mp hcond).2
      have hspl := splitAtPat_length _ _ _ _ hsp
      have hub : upperSerNode cfg
          (.text ([lbrace, lbrace] ++ inner ++ [rbrace, rbrace]))
          = ([lbrace, lbrace] ++ inner ++ [rbrace, rbrace]).length := rfl
      have hlen : ([lbrace, lbrace] ++ inner ++ [rbrace, rbrace]).length
          = inner.length + 4 := by simp
      have hd2 : ((c :: rest).drop 2).length = rest.length + 1 - 2 := by
        simp
      simp only [List.length_cons, List.length_nil] at hswl hspl
      simp only [upperSerList, List.length_cons]
      omega
    case hbr2E =>
      intro c rest hs hc hcond hsp
      subst hs
      have hub : upperSerNode cfg (.text (c :: rest))
          = (c :: rest).length := rfl
      have hcr : (c :: rest).length = rest.length + 1 := by simp
      simp only [upperSerList, List.length_cons, List.length_nil]
      omega
    case hbrHC =>
      intro c rest inner after hs hc hcond0 hcond hsp
      subst hs
      have hih := ih ns stack after
      have hswl := startsWith_length _ _ ((Bool.and_eq_true _ _).mp hcond).2
      have hspl := splitAtPat_length _ _ _ _ hsp
      have hub : upperSerNode cfg
          (.text ([lbrace, '#'] ++ inner ++ ['#', rbrace]))
          = ([lbrace, '#'] ++ inner ++ ['#', rbrace]).length := rfl
      have hlen : ([lbrace, '#'] ++ inner ++ ['#', rbrace]).length
          = inner.length + 4 := by simp
      have hd2 : ((c :: rest).drop 2).length = rest.length + 1 - 2 := by
        simp
      simp only [List.length_cons, List.length_nil] at hswl hspl
      simp only [upperSerList, List.length_cons]
      omega
    case hbrHE =>
      intro c rest hs hc hcond0 hcond hsp
      subst hs
      have hub : upperSerNode cfg (.text (c :: rest))
          = (c :: rest).length := rfl
      have hcr : (c :: rest).length = rest.length + 1 := by simp
      simp only [upperSerList, List.length_cons, List.length_nil]
      omega
    case hbrPC =>
      intro c rest inner after hs hc hcond0 hcond1 hcond hsp
      subst hs
      have hih := ih ns stack after
      have hswl := startsWith_length _ _ ((Bool.and_eq_true _ _).mp hcond).2
      have hspl := splitAtPat_length _ _ _ _ hsp
      have hub : upperSerNode cfg
          (.text ([lbrace, '%'] ++ inner ++ ['%', rbrace]))
          = ([lbrace, '%'] ++ inner ++ ['%', rbrace]).length := rfl
      have hlen : ([lbrace, '%'] ++ inner ++ ['%', rbrace]).length
          = inner.length + 4 := by simp
      have hd2 : ((c :: rest).drop 2).length = rest.length + 1 - 2 := by
        simp
      simp only [List.length_cons, List.length_nil] at hswl hspl
      simp only [upperSerList, List.length_cons]
      omega
    case hbrPE =>
      intro c rest hs hc hcond0 hcond1 hcond hsp
      subst hs
      have hub : upperSerNode cfg (.text (c :: rest))
          = (c :: rest).length := rfl
      have hcr : (c :: rest).length = rest.length + 1 := by simp
      simp only [upperSerList, List.length_cons, List.length_nil]
      omega
    case hplain =>
      intro c rest hs hc hcond0 hcond1 hcond
      subst hs
      have hih := ih ns stack rest
      have hub : upperSerNode cfg (.text [c]) = 1 := rfl
      simp only [upperSerList, List.length_cons] at hih ⊢
      omega
    case hopen =>
      intro c d rest2 hs hc hq1 hq2 hq3 hq4 hq5 hal
      subst hs
      apply parseOpenTag_elim cfg (parseNodes cfg fuel) ns stack c
        (d :: rest2)
        ((d :: rest2).takeWhile fun e => !(isWs e || e == '/' || e == '>'))
        ((d :: rest2).drop
          (((d :: rest2).takeWhile fun e =>
            !(isWs e || e == '/' || e == '>')).length))
        (fun res => upperSerList cfg res.1 + res.2.length
          ≤ (c :: d :: rest2).length)
      · intro hpa
        simp [upperSerList, upperSerNode]
      · intro attrs sc2 rest3 hpa
        have hacc := parseAttrs_accounting cfg hks hesc _ _ _ _ _ _ hpa
        rw [attrMargin_zero_of_head cfg [] _
          (tokenStart_afterName (d :: rest2))] at hacc
        have hE0 : (serializeAttrsGo cfg false
            ([] : List (Bytes × Bytes))).length = 0 := rfl
        rw [hE0] at hacc
        have hanl := takeWhile_dropWhile_length
          (fun e => !(isWs e || e == '/' || e == '>')) (d :: rest2)
        rw [← drop_takeWhile_eq_dropWhile] at hanl
        have hge1 : 1 ≤ (if sc2 = true then (2:Nat) else 1) := by
          cases sc2 <;> simp
        set tn := ((d :: rest2).takeWhile fun e =>
          !(isWs e || e == '/' || e == '>')) with htn
        set anm := (d :: rest2).drop tn.length with ham
        apply parseElem_elim cfg (parseNodes cfg fuel) ns stack tn attrs
          sc2 rest3 (elemNamespace ns tn)
          (fun res => upperSerList cfg res.1 + res.2.length
            ≤ (c :: d :: rest2).length)
        case hvoid =>
          intro hv
          have hih := ih ns stack rest3
          have hub := upperSer_el_void cfg attrs tn (elemNamespace ns tn)
          simp only [List.length_cons] at hanl
          simp only [upperSerList, List.length_cons]
          omega
        case hsc =>
          intro hv hsc2
          have hih := ih ns stack rest3
          have hub := upperSer_el_selfClosing cfg attrs tn
            (elemNamespace ns tn)
          have hs2 : sc2 = true := ((Bool.and_eq_true _ _).mp hsc2).1
          have hif : (if sc2 = true then (2:Nat) else 1) = 2 := by
            rw [hs2]
            rfl
          rw [hif] at hacc
          simp only [List.length_cons] at hanl
          simp only [upperSerList, List.length_cons]
          omega
        case hrawC =>
          intro content rr hv hsc2 hraw hscan
          have hih := ih ns stack rr
          have hscanl := scanRaw_some_length tn _ rest3 content rr hscan
          have hub := upperSer_el_present cfg attrs
            [.scriptOrStyleContent content
              (if tagIs tn "style" then .css else scriptLang attrs)]
            tn (elemNamespace ns tn)
          have hsos : upperSerList cfg
              [.scriptOrStyleContent content
                (if tagIs tn "style" then .css else scriptLang attrs)]
              = content.length := rfl
          rw [hsos] at hub
          simp only [List.length_cons] at hanl
          simp only [upperSerList, List.length_cons]
          omega
        case hrawE =>
          intro content hv hsc2 hraw hscan
          have hscanl := scanRaw_none_length tn _ rest3 content hscan
          have hub := upperSer_el_omitted cfg attrs
            [.scriptOrStyleContent content
              (if tagIs tn "style" then .css else scriptLang attrs)]
            tn (elemNamespace ns tn)
          have hsos : upperSerList cfg
              [.scriptOrStyleContent content
                (if tagIs tn "style" then .css else scriptLang attrs)]
              = content.length := rfl
          rw [hsos] at hub
          simp only [List.length_cons] at hanl
          simp only [upperSerList, List.length_cons, List.length_nil]
          omega
        case hcloseC =>
          intro r4 hv hsc2 hraw hm
          have hihC := ih (childNamespace (elemNamespace ns tn) tn)
            (tn :: stack) rest3
          have hih4 := ih ns stack r4
          have hmcl := matchCloseTag_some_length tn _ r4 hm
          have hub := upperSer_el_present cfg attrs
            (parseNodes cfg fuel (childNamespace (elemNamespace ns tn) tn)
              (tn :: stack) rest3).1 tn (elemNamespace ns tn)
          simp only [List.length_cons] at hanl
          simp only [upperSerList, List.length_cons]
          omega
        case hcloseN =>
          intro hv hsc2 hraw hm
          have hihC := ih (childNamespace (elemNamespace ns tn) tn)
            (tn :: stack) rest3
          have hih2 := ih ns stack
            (parseNodes cfg fuel (childNamespace (elemNamespace ns tn) tn)
              (tn :: stack) rest3).2
          have hub := upperSer_el_omitted cfg attrs
            (parseNodes cfg fuel (childNamespace (elemNamespace ns tn) tn)
              (tn :: stack) rest3).1 tn (elemNamespace ns tn)
          simp only [List.length_cons] at hanl
          simp only [upperSerList, List.length_cons]
          omega

theorem minify_length_le (cfg : Cfg)
    (hks : cfg.keep_spaces_between_attributes = false)
    (hesc : cfg.ensure_spec_compliant_unquoted_attribute_values = false)
    (src : Bytes) : (minify src cfg).length ≤ src.length := by
  unfold minify parse
  calc (minifyDoc cfg
        (parseNodes cfg (src.length + 1) .html [] src).1).length
      ≤ upperSerList cfg (parseNodes cfg (src.length + 1) .html [] src).1 :=
        minifyDoc_le_upper cfg _
    _ ≤ src.length := by
        have := parseNodes_upper cfg hks hesc (src.length + 1) .html [] src
        omega

/-- C2: under the default configuration (every boolean flag false) the
minified output is never longer than the input, for every byte sequence;
moreover the serializer never synthesizes a terminator for an unterminated
(`ended = false`) comment, bang or instruction — the comment and
instruction are emitted exactly as captured and the bang emits exactly its
captured bytes after the two opening bytes — and a text node (in
particular a template passthrough segment) is serialized verbatim, adding
no bytes, under every configuration. -/
theorem minify_non_expanding_default :
    (∀ src : Bytes, (minify src Cfg.default).length ≤ src.length) ∧
    (∀ (code : Bytes) (b : Bool),
      serializeNode Cfg.default b (.comment code false)
          = '<' :: '!' :: '-' :: '-' :: code ∧
      (serializeNode Cfg.default b (.bang code false)).length
          = 2 + code.length ∧
      serializeNode Cfg.default b (.instruction code false)
          = '<' :: '?' :: code) ∧
    (∀ (cfg : Cfg) (b : Bool) (v : Bytes),
      serializeNode cfg b (.text v) = v) := by
  refine ⟨fun src => minify_length_le Cfg.default rfl rfl src,
    fun code b => ⟨?_, ?_, ?_⟩, fun cfg b v => rfl⟩
  · simp [serializeNode]
  · simp only [serializeNode, List.length_cons, List.length_append]
    split <;> simp [lowerBytes] <;> omega
  · simp [serializeNode]

/-- C3 counterexample: minification is not idempotent.  Under the default
configuration the first pass omits the legally-omittable `</body>` closing
tag (its next sibling is text) while keeping the trailing space of `x `
(its right boundary is the formatting element `</i>`); reparsing the
output places that text inside the unclosed `body`, whose block-level
boundary then trims the space, so the second pass produces strictly
different (shorter) bytes. -/
theorem minify_idempotence_counterexample :
    minify "<i><body>a</body>x </i>".data Cfg.default
        = "<i><body>ax </i>".data ∧
    minify "<i><body>ax </i>".data Cfg.default
        = "<i><body>ax</i>".data ∧
    minify (minify "<i><body>a</body>x </i>".data Cfg.default) Cfg.default
      ≠ minify "<i><body>a</body>x </i>".data Cfg.default := by
  refine ⟨rfl, rfl, ?_⟩
  decide

/-- C3 (amended): reapplying minification never expands the output — under
the default configuration the second pass's result is at most as long as
the first's, for every input — but it is not the identity on minified
output: eliding an omittable closing tag before following text re-scopes
that text into the unclosed element on reparse, and its changed whitespace
boundary can make a second pass strictly shorter. -/
theorem minify_reminify_non_increasing (x : Bytes) :
    (minify (minify x Cfg.default) Cfg.default).length
      ≤ (minify x Cfg.default).length :=
  minify_length_le Cfg.default rfl rfl (minify x Cfg.default)

end MinifyHtml
